import Mathlib

/-!
Verification of the video-compilation service core against its source.

The definitions below are shallow embeddings of the Python source:

* `submit_job_queue`          — queue classification in `backend/api/routes/jobs.py` (`submit_job`)
* `stale_redispatch`          — stale-job re-dispatch in `backend/api/main.py` (`stale_job_detector_task`)
* job-row mutations           — the Supabase `jobs` updates performed by
                                `backend/workers/tasks.py` (`_process_compilation`),
                                `backend/workers/progress_parser.py` and the API routes
* `progress_of`               — the progress computation in `run_ffmpeg_with_progress`
* `rsync_io_timeout`          — the dynamic copy timeout in `backend/services/storage.py`
* `generate_ass_events`       — the Dialogue events of `generate_ass_subtitle_file`
                                in `backend/workers/ffmpeg_builder.py`
* `sanitize_filename`         — the production-filename sanitizer in `backend/api/routes/jobs.py`
* `normalize_one`             — the path normalizer `normalize_paths` in `backend/services/storage.py`

Machine floats of the source are modelled as rationals, Python strings as `List Char`.
-/

namespace VideoCompilation

/-- Queues of the broker, as configured in `workers/celery_app.py`. -/
inductive Queue where
  | fourK    -- "4k_queue"
  | gpu      -- "gpu_queue"
  | defaultQ -- "default_queue"
  deriving DecidableEq, Repr

/-- Job statuses stored in the `jobs` table. -/
inductive JobStatus where
  | queued
  | processing
  | completed
  | failed
  | cancelled
  deriving DecidableEq, Repr

/-- Queue classification of `submit_job` (backend/api/routes/jobs.py).
`enable4k` is the job's 4K flag, `videoCount` the number of items with
`item_type == video`, `hasTextAnimation` whether any video item carries a
non-empty text animation.  Mirrors the Python:
`is_large_job`, `is_small_job`, and the `if is_large_job / elif is_small_job / else`
dispatch. -/
def submit_job_queue (enable4k : Bool) (videoCount : Nat) (hasTextAnimation : Bool) : Queue :=
  let is_large_job := (enable4k && videoCount > 20) || (!enable4k && videoCount > 40)
  let is_small_job := !hasTextAnimation &&
      ((enable4k && videoCount ≤ 10) || (!enable4k && videoCount ≤ 30))
  if is_large_job then Queue.fourK
  else if is_small_job then Queue.defaultQ
  else Queue.gpu

/-- Queue table as written in the specification §4.5: first match wins among
`K ∧ V > 20 ∨ ¬K ∧ V > 40 ↦ 4k_queue`, `T ∨ (K ∧ V ≤ 20) ↦ gpu_queue`,
otherwise `default_queue`.  This follows the spec's words, for comparison with
`submit_job_queue` which follows the code. -/
def spec_table_queue (enable4k : Bool) (videoCount : Nat) (hasTextAnimation : Bool) : Queue :=
  if (enable4k && videoCount > 20) || (!enable4k && videoCount > 40) then Queue.fourK
  else if hasTextAnimation || (enable4k && videoCount ≤ 20) then Queue.gpu
  else Queue.defaultQ

/-- Broker task states inspected by the stale-job detector. -/
inductive BrokerTaskState where
  | pending
  | started
  | success
  | failure
  | revoked
  deriving DecidableEq, Repr

/-- Queue the stale-job detector re-dispatches to
(`stale_job_detector_task` in backend/api/main.py): `process_4k_compilation`
(4k_queue) when `enable_4k`, else `process_standard_compilation` (default_queue). -/
def stale_redispatch_queue (enable4k : Bool) : Queue :=
  if enable4k then Queue.fourK else Queue.defaultQ

/-- Stale-job detector action on one stale row: when the broker task state is
FAILURE or PENDING it re-dispatches (returning the chosen queue) and overwrites
`task_id` with the newly assigned id; any other state leaves the row untouched.
Result: (new task_id field, queue dispatched to, if any). -/
def stale_redispatch (taskId : Option Nat) (enable4k : Bool) (state : BrokerTaskState)
    (newTaskId : Nat) : Option Nat × Option Queue :=
  if state = BrokerTaskState.failure ∨ state = BrokerTaskState.pending then
    (some newTaskId, some (stale_redispatch_queue enable4k))
  else
    (taskId, none)

end VideoCompilation

namespace VideoCompilation

/-- Job row fields relevant to status/progress invariants (`jobs` table). -/
structure JobRow where
  status : JobStatus
  progress : Int
  progressMessage : String
  errorMessage : Option String
  outputPath : Option String
  completedAt : Option Nat
  deriving DecidableEq, Repr

/-- Row created by `submit_job` (backend/api/routes/jobs.py): status `queued`,
progress `0`, message `"Job queued"`. -/
def submit_insert_row : JobRow :=
  { status := JobStatus.queued
    progress := 0
    progressMessage := "Job queued"
    errorMessage := none
    outputPath := none
    completedAt := none }

/-- Worker start update (`_process_compilation`, step "Update job status"):
sets status to `processing`; progress is not written. -/
def worker_start_update (r : JobRow) : JobRow :=
  { r with status := JobStatus.processing, progressMessage := "Starting..." }

/-- Progress-parser row update (`run_ffmpeg_with_progress`): writes the computed
progress together with status `processing`. -/
def parser_progress_update (p : Int) (r : JobRow) : JobRow :=
  { r with progress := p, status := JobStatus.processing }

/-- Completion update of `_process_compilation` step 6: one update writing
status `completed`, progress `100`, the output path and `completed_at`. -/
def completion_update (out : String) (t : Nat) (r : JobRow) : JobRow :=
  { r with
    status := JobStatus.completed
    progress := 100
    progressMessage := "Completed"
    outputPath := some out
    completedAt := some t }

/-- Top-level catch block of `_process_compilation` (backend/workers/tasks.py,
`except Exception`): unconditionally writes status `failed`, the error message
and `completed_at`; progress is not written. -/
def worker_catch_update (msg : String) (t : Nat) (r : JobRow) : JobRow :=
  { r with
    status := JobStatus.failed
    progressMessage := "Failed"
    errorMessage := some msg
    completedAt := some t }

/-- Cancel update of the API's `cancel_job` endpoint: writes status `cancelled`,
`completed_at` and an error message.  The endpoint performs it only after
checking the current status is `queued` or `processing`. -/
def cancel_update (t : Nat) (r : JobRow) : JobRow :=
  { r with
    status := JobStatus.cancelled
    errorMessage := some "Cancelled by user"
    completedAt := some t }

/-- Guard of `cancel_job`: only queued or processing jobs may be cancelled. -/
def cancel_allowed (r : JobRow) : Prop :=
  r.status = JobStatus.queued ∨ r.status = JobStatus.processing

/-- Invariant of the spec: `progress == 100` iff status is `completed`. -/
def ProgressInvariant (r : JobRow) : Prop :=
  r.progress = 100 ↔ r.status = JobStatus.completed

instance (r : JobRow) : Decidable (ProgressInvariant r) := by
  unfold ProgressInvariant; infer_instance

end VideoCompilation

namespace VideoCompilation

/-- Seconds parsed from a `time=HH:MM:SS.ss` line by `parse_ffmpeg_progress`. -/
def parse_time_seconds (h m : Nat) (s : Rat) : Rat :=
  (h : Rat) * 3600 + (m : Rat) * 60 + s

/-- Progress computed by `run_ffmpeg_with_progress` from the current output time:
`progress = int((current_time / total_duration) * 100)` then
`progress = min(progress, 99)`.  Python's `int()` truncates toward zero, which
on the nonnegative values here is the floor. -/
def progress_of (current total : Rat) : Int :=
  min ⌊current / total * 100⌋ 99

/-- Per-line update step of `run_ffmpeg_with_progress`: the job row is written
only when the newly computed progress exceeds the last written value
(`if progress > last_progress`).  Returns the new last-written value and
whether a write happened. -/
def progress_step (last : Int) (current total : Rat) : Int × Bool :=
  let p := progress_of current total
  if last < p then (p, true) else (last, false)

/-- Dynamic I/O timeout of `_copy_with_rsync` (and `_copy_with_cp`) in
backend/services/storage.py: `size_gb = bytes / 1024 ** 3` and
`max(300, min(3600, int(size_gb * 120)))` seconds. -/
def rsync_io_timeout (sizeBytes : Nat) : Int :=
  max 300 (min 3600 ⌊(sizeBytes : Rat) / (1024 ^ 3 : Nat) * 120⌋)

end VideoCompilation

namespace VideoCompilation

/-! Theorems for the claims. -/

/-- Claim C1 (counterexample): the code's queue classification does not match the
spec §4.5 table.  A non-4K job with no text animation and exactly 40 video items
is routed by the code to `gpu_queue` (its `is_small_job` requires ≤ 30 videos
without 4K), while the claimed table routes it to `default_queue`. -/
theorem submit_job_queue_differs_from_spec_table :
    submit_job_queue false 40 false = Queue.gpu ∧
    spec_table_queue false 40 false = Queue.defaultQ ∧
    submit_job_queue false 40 false ≠ spec_table_queue false 40 false := by
  decide

/-- Claim C1 (amended): queue classification is a total function of
`(enable_4k, video_count, has_text_animation)`: if `(K ∧ V > 20) ∨ (¬K ∧ V > 40)`
the job is routed to `4k_queue`; otherwise, if there is no text animation and
`(K ∧ V ≤ 10) ∨ (¬K ∧ V ≤ 30)`, to `default_queue`; otherwise to `gpu_queue`.
In particular a non-4K job with no text animation and 40 video items routes to
`gpu_queue`, and with 41 video items to `4k_queue`. -/
theorem submit_job_queue_characterization :
    (∀ (k t : Bool) (v : Nat),
      ((k = true ∧ 20 < v) ∨ (k = false ∧ 40 < v) →
        submit_job_queue k v t = Queue.fourK) ∧
      (¬((k = true ∧ 20 < v) ∨ (k = false ∧ 40 < v)) →
        t = false → ((k = true ∧ v ≤ 10) ∨ (k = false ∧ v ≤ 30)) →
        submit_job_queue k v t = Queue.defaultQ) ∧
      (¬((k = true ∧ 20 < v) ∨ (k = false ∧ 40 < v)) →
        ¬(t = false ∧ ((k = true ∧ v ≤ 10) ∨ (k = false ∧ v ≤ 30))) →
        submit_job_queue k v t = Queue.gpu)) ∧
    submit_job_queue false 40 false = Queue.gpu ∧
    submit_job_queue false 41 false = Queue.fourK := by
  refine ⟨?_, by decide, by decide⟩
  intro k t v
  refine ⟨?_, ?_, ?_⟩
  · intro h
    unfold submit_job_queue
    have hl : (k && decide (20 < v) || (!k && decide (40 < v))) = true := by
      rcases h with ⟨hk, hv⟩ | ⟨hk, hv⟩ <;> subst hk <;> simp [hv]
    simp [hl]
  · intro h ht hs
    unfold submit_job_queue
    have hl : (k && decide (20 < v) || (!k && decide (40 < v))) = false := by
      cases k <;> simp_all
    have hsb : (!t && ((k && decide (v ≤ 10)) || (!k && decide (v ≤ 30)))) = true := by
      subst ht
      rcases hs with ⟨hk, hv⟩ | ⟨hk, hv⟩ <;> subst hk <;> simp [hv]
    simp [hl, hsb]
  · intro h hns
    unfold submit_job_queue
    have hl : (k && decide (20 < v) || (!k && decide (40 < v))) = false := by
      cases k <;> simp_all
    have hsb : (!t && ((k && decide (v ≤ 10)) || (!k && decide (v ≤ 30)))) = false := by
      cases t
      · have hv := fun hh => hns ⟨rfl, hh⟩
        cases k <;> simp_all
      · simp
    simp [hl, hsb]

/-- Claim C1 witness: the amended characterization evaluated at a 4K job with
25 videos (first clause), a non-4K job with 30 videos and no text animation
(second clause), and a non-4K job with 35 videos (third clause). -/
theorem submit_job_queue_characterization_witness :
    submit_job_queue true 25 false = Queue.fourK ∧
    submit_job_queue false 30 false = Queue.defaultQ ∧
    submit_job_queue false 35 false = Queue.gpu := by
  refine ⟨?_, ?_, ?_⟩
  · exact (submit_job_queue_characterization.1 true false 25).1 (by decide)
  · exact (submit_job_queue_characterization.1 false false 30).2.1 (by decide) rfl (by decide)
  · exact (submit_job_queue_characterization.1 false false 35).2.2 (by decide) (by decide)

end VideoCompilation

namespace VideoCompilation

/-- Claim C3 (counterexample): the stale-job detector does not use the
dispatcher's queue-selection policy.  A stale non-4K job with 10 videos and text
animation classifies to `gpu_queue` under §4.5, but the detector re-dispatches
it to `default_queue` (it only looks at `enable_4k`). -/
theorem stale_redispatch_differs_from_dispatcher :
    submit_job_queue false 10 true = Queue.gpu ∧
    stale_redispatch (some 1) false BrokerTaskState.pending 2 =
      (some 2, some Queue.defaultQ) ∧
    Queue.defaultQ ≠ Queue.gpu := by
  decide

/-- Claim C3 (amended): for every stale job whose broker task state is failed or
pending (unknown-to-broker), the detector re-dispatches using only the job's 4K
flag — `4k_queue` when `enable_4k` else `default_queue`, never `gpu_queue` — and
overwrites `task_id` with the newly assigned id; any other broker state leaves
the row untouched. -/
theorem stale_redispatch_characterization :
    ∀ (tid : Option Nat) (k : Bool) (st : BrokerTaskState) (nid : Nat),
      (st = BrokerTaskState.failure ∨ st = BrokerTaskState.pending →
        (stale_redispatch tid k st nid).1 = some nid ∧
        (stale_redispatch tid k st nid).2 =
          some (if k then Queue.fourK else Queue.defaultQ) ∧
        (stale_redispatch tid k st nid).2 ≠ some Queue.gpu) ∧
      (¬(st = BrokerTaskState.failure ∨ st = BrokerTaskState.pending) →
        stale_redispatch tid k st nid = (tid, none)) := by
  intro tid k st nid
  constructor
  · intro h
    simp only [stale_redispatch, if_pos h, stale_redispatch_queue]
    cases k <;> simp
  · intro h
    simp only [stale_redispatch, if_neg h]

/-- Claim C3 witness: the amended characterization at a concrete stale 4K job
with a failed broker task, and at a concrete job with a started task. -/
theorem stale_redispatch_characterization_witness :
    ((stale_redispatch (some 7) true BrokerTaskState.failure 9).1 = some 9 ∧
      (stale_redispatch (some 7) true BrokerTaskState.failure 9).2 =
        some (if true then Queue.fourK else Queue.defaultQ) ∧
      (stale_redispatch (some 7) true BrokerTaskState.failure 9).2 ≠ some Queue.gpu) ∧
    stale_redispatch (some 7) true BrokerTaskState.started 9 = (some 7, none) :=
  ⟨(stale_redispatch_characterization (some 7) true BrokerTaskState.failure 9).1
      (Or.inl rfl),
    (stale_redispatch_characterization (some 7) true BrokerTaskState.started 9).2
      (by decide)⟩

/-- Claim C2 (counterexample): the worker's top-level catch block does overwrite
a cancelled status with `failed`.  Applied to a job row whose status is already
`cancelled` (as set by the API cancel endpoint before the pipeline's
cancellation exception reaches the catch block), the catch-block update leaves
the final row with status `failed`, not `cancelled`. -/
theorem worker_catch_overwrites_cancelled :
    (worker_catch_update "Job cancelled by user" 5
        { status := JobStatus.cancelled
          progress := 42
          progressMessage := "Encoding video..."
          errorMessage := some "Cancelled by user"
          outputPath := none
          completedAt := some 4 }).status = JobStatus.failed ∧
    JobStatus.failed ≠ JobStatus.cancelled := by
  decide

/-- Claim C2 (amended): the worker's top-level catch block unconditionally marks
the job `failed` — whatever the current status, including `cancelled` — storing
the raised message as `error_message` and leaving `progress` untouched; a
cancelled status is not preserved in the final job row. -/
theorem worker_catch_unconditionally_fails :
    ∀ (msg : String) (t : Nat) (r : JobRow),
      (worker_catch_update msg t r).status = JobStatus.failed ∧
      (worker_catch_update msg t r).errorMessage = some msg ∧
      (worker_catch_update msg t r).progress = r.progress := by
  intro msg t r
  exact ⟨rfl, rfl, rfl⟩

end VideoCompilation

namespace VideoCompilation

/-- Claim C6 (counterexample): the worker's failure path does not preserve the
invariant `progress == 100 ↔ status == completed`.  Starting from the row
written by the completion step (progress 100, status completed — the invariant
holds), the catch-block update performed when an error is raised after
completion (for example Celery's soft-time-limit exception, configured in
`workers/celery_app.py`, or any exception raised between the completion update
and the task's return) leaves progress 100 with status `failed`. -/
theorem progress_invariant_broken_by_catch_after_completion :
    ProgressInvariant (completion_update "out.mp4" 1 submit_insert_row) ∧
    ¬ ProgressInvariant
        (worker_catch_update "SoftTimeLimitExceeded" 2
          (completion_update "out.mp4" 1 submit_insert_row)) := by
  decide

/-- Claim C6 (amended): the invariant `progress == 100 ↔ status == completed` is
established by submission (progress 0, status queued), preserved by every
progress-parser write (values capped at 99, status processing), by the
completion step (progress 100 together with status completed in one update), and
by the API's cancellation path (guarded to run only on queued or processing
rows); the worker's failure path preserves it provided the job is not already
completed — neither failure nor cancellation ever writes `progress`. -/
theorem progress_invariant_per_mutation :
    ProgressInvariant submit_insert_row ∧
    (∀ (r : JobRow) (c t : Rat),
      ProgressInvariant (parser_progress_update (progress_of c t) r)) ∧
    (∀ (r : JobRow) (out : String) (t : Nat),
      ProgressInvariant (completion_update out t r)) ∧
    (∀ (r : JobRow) (msg : String) (t : Nat),
      ProgressInvariant r → r.status ≠ JobStatus.completed →
        ProgressInvariant (worker_catch_update msg t r) ∧
        (worker_catch_update msg t r).progress = r.progress) ∧
    (∀ (r : JobRow) (t : Nat),
      ProgressInvariant r → cancel_allowed r →
        ProgressInvariant (cancel_update t r) ∧
        (cancel_update t r).progress = r.progress) := by
  refine ⟨by decide, ?_, ?_, ?_, ?_⟩
  · intro r c t
    have hle : progress_of c t ≤ 99 := min_le_right _ _
    constructor
    · intro h
      simp only [parser_progress_update] at h
      omega
    · intro h
      simp only [parser_progress_update] at h
      cases h
  · intro r out t
    constructor
    · intro _; rfl
    · intro _; rfl
  · intro r msg t hInv hne
    refine ⟨?_, rfl⟩
    constructor
    · intro h
      simp only [worker_catch_update] at h
      exact absurd (hInv.mp h) hne
    · intro h
      simp only [worker_catch_update] at h
      cases h
  · intro r t hInv hAllowed
    refine ⟨?_, rfl⟩
    constructor
    · intro h
      simp only [cancel_update] at h
      have := hInv.mp h
      rcases hAllowed with ha | ha <;> rw [ha] at this <;> cases this
    · intro h
      simp only [cancel_update] at h
      cases h
  
/-- Claim C6 witness: the per-mutation invariant theorem applied at a concrete
processing row for the failure clause and the cancellation clause. -/
theorem progress_invariant_per_mutation_witness :
    ProgressInvariant
      (worker_catch_update "FFmpeg failed with return code 1" 3
        (worker_start_update submit_insert_row)) ∧
    ProgressInvariant (cancel_update 3 (worker_start_update submit_insert_row)) :=
  ⟨(progress_invariant_per_mutation.2.2.2.1 (worker_start_update submit_insert_row)
      "FFmpeg failed with return code 1" 3 (by decide) (by decide)).1,
    (progress_invariant_per_mutation.2.2.2.2 (worker_start_update submit_insert_row)
      3 (by decide) (Or.inr rfl)).1⟩

end VideoCompilation

namespace VideoCompilation

/-- Claim C8: for every parsed `time=` line the progress parser computes
`min(99, floor(100 · current / total_expected))` — so the value written during
encoding never reaches 100 — and it writes to the job row only when the computed
value exceeds the last written value by at least one point. -/
theorem progress_parser_cap_and_write_condition :
    ∀ (h m : Nat) (s total : Rat) (last : Int),
      progress_of (parse_time_seconds h m s) total =
        min 99 ⌊100 * parse_time_seconds h m s / total⌋ ∧
      progress_of (parse_time_seconds h m s) total ≤ 99 ∧
      ((progress_step last (parse_time_seconds h m s) total).2 = true →
        (progress_step last (parse_time_seconds h m s) total).1 =
          progress_of (parse_time_seconds h m s) total ∧
        last + 1 ≤ (progress_step last (parse_time_seconds h m s) total).1) := by
  intro h m s total last
  refine ⟨?_, min_le_right _ _, ?_⟩
  · unfold progress_of
    rw [min_comm]
    congr 2
    ring
  · intro hw
    unfold progress_step at hw ⊢
    by_cases hlt : last < progress_of (parse_time_seconds h m s) total
    · simp only [if_pos hlt]
      exact ⟨trivial, by omega⟩
    · simp only [if_neg hlt] at hw
      cases hw

/-- Claim C8 witness: the parser theorem at the line `time=00:01:23.45` with a
total expected duration of 100s and last written value 0: the computed progress
83 is written and exceeds 0 by at least one point. -/
theorem progress_parser_cap_and_write_condition_witness :
    (progress_step 0 (parse_time_seconds 0 1 (2345/100)) 100).1 =
      progress_of (parse_time_seconds 0 1 (2345/100)) 100 ∧
    (0 : Int) + 1 ≤ (progress_step 0 (parse_time_seconds 0 1 (2345/100)) 100).1 :=
  (progress_parser_cap_and_write_condition 0 1 (2345/100) 100 0).2.2
    (by norm_num [progress_step, progress_of, parse_time_seconds])

/-- Claim C9: on a container host the rsync copier's I/O timeout for a source of
`b` bytes is `max(300, min(3600, size_gb · 120))` seconds (the product truncated
to whole seconds, `size_gb = b / 1024³`); a 50 GB source gets 3600s (capped) and
a 500 MB source gets 300s (floor). -/
theorem rsync_io_timeout_formula :
    (∀ b : Nat, rsync_io_timeout b = max 300 (min 3600 ((b * 120 / 1024 ^ 3 : Nat) : Int))) ∧
    rsync_io_timeout (50 * 1024 ^ 3) = 3600 ∧
    rsync_io_timeout (500 * 1024 ^ 2) = 300 := by
  have hf : ∀ b : Nat,
      rsync_io_timeout b = max 300 (min 3600 ((b * 120 / 1024 ^ 3 : Nat) : Int)) := by
    intro b
    unfold rsync_io_timeout
    have h1 : ((b : Rat) / ((1024 ^ 3 : Nat) : Rat) * 120) =
        ((b * 120 : Nat) : Rat) / ((1024 ^ 3 : Nat) : Rat) := by
      push_cast
      ring
    rw [h1, Rat.floor_natCast_div_natCast, Int.natCast_div]
  refine ⟨hf, ?_, ?_⟩
  · rw [hf]
    norm_num
  · rw [hf]
    norm_num

end VideoCompilation

namespace VideoCompilation

/-- One `Dialogue:` event of the generated ASS file: start time, end time
(seconds) and the revealed substring. -/
structure AssEvent where
  startTime : Rat
  endTime : Rat
  revealed : List Char
  deriving DecidableEq, Repr

/-- Event written by `generate_ass_subtitle_file` for reveal index `i`
(1-based) in the cycle starting at `cs`: `start_time = cs + (i-1)·letter_delay`;
the end time is `cs + visible` for the last letter and `cs + i·letter_delay`
otherwise, clamped by `min(end_time, video_duration)`; the text is `text[:i]`. -/
def ass_reveal_event (text : List Char) (duration delay visible cs : Rat)
    (i : Nat) : AssEvent :=
  { startTime := cs + ((i : Rat) - 1) * delay
    endTime := min (if i = text.length then cs + visible else cs + (i : Rat) * delay) duration
    revealed := text.take i }

/-- Inner loop of `generate_ass_subtitle_file` for one cycle starting at `cs`:
iterates `i = 1 .. len(text)` and breaks as soon as `start_time >= video_duration`
(hence the `takeWhile`). -/
def ass_cycle_events (text : List Char) (duration delay visible : Rat)
    (cs : Rat) : List AssEvent :=
  (((List.range' 1 text.length).takeWhile
      (fun (i : Nat) => decide (cs + ((i : Rat) - 1) * delay < duration))).map
    (ass_reveal_event text duration delay visible cs))

/-- Cycle count of `generate_ass_subtitle_file`:
`num_cycles = int(video_duration / cycle_duration) + 1` (`int()` truncates
toward zero, the floor on the nonnegative durations used here). -/
def num_cycles (duration cycle : Rat) : Nat :=
  (⌊duration / cycle⌋).toNat + 1

/-- Dialogue events of `generate_ass_subtitle_file`
(backend/workers/ffmpeg_builder.py): for each cycle `c = 0 .. num_cycles-1`
starting at `c · cycle_duration`, the letter-by-letter reveal events. -/
def generate_ass_events (text : List Char) (duration delay cycle visible : Rat) :
    List AssEvent :=
  (List.range (num_cycles duration cycle)).flatMap
    (fun c => ass_cycle_events text duration delay visible ((c : Rat) * cycle))

/-- Event list as the specification §4.8 words it: the animation repeats in
cycles of length `cycle` until the duration is covered; within each cycle the
reveals are separated by `letter_delay`, the full text stays until `visible`
into the cycle, times are clamped to the duration and events starting at or
past the video duration are omitted (a `filter`, where the code breaks out of
the loop).  This follows the spec's words, for comparison with
`generate_ass_events`. -/
def spec_ass_events (text : List Char) (duration delay cycle visible : Rat) :
    List AssEvent :=
  (List.range (num_cycles duration cycle)).flatMap
    (fun c =>
      (((List.range' 1 text.length).filter
          (fun (i : Nat) => decide ((c : Rat) * cycle + ((i : Rat) - 1) * delay < duration))).map
        (ass_reveal_event text duration delay visible ((c : Rat) * cycle))))

/-- With a predicate that never turns from false back to true along the list
(here: reveal start times are nondecreasing), breaking out of the loop is the
same as filtering. -/
theorem takeWhile_eq_filter_of_pairwise {α : Type} {p : α → Bool} {l : List α}
    (h : l.Pairwise (fun a b => p b = true → p a = true)) :
    l.takeWhile p = l.filter p := by
  induction l with
  | nil => rfl
  | cons a l ih =>
    rcases List.pairwise_cons.mp h with ⟨ha, hl⟩
    by_cases hpa : p a = true
    · rw [List.takeWhile_cons, List.filter_cons, if_pos hpa, if_pos hpa, ih hl]
    · rw [List.takeWhile_cons, List.filter_cons, if_neg hpa, if_neg hpa]
      have : l.filter p = [] := by
        rw [List.filter_eq_nil_iff]
        intro b hb hpb
        exact hpa (ha b hb hpb)
      rw [this]

/-- Reveal start times are nondecreasing within a cycle, so the loop break is a
filter: the code's event list equals the spec-worded one when `letter_delay ≥ 0`. -/
theorem generate_ass_events_eq_spec (text : List Char)
    (duration delay cycle visible : Rat) (hd : 0 ≤ delay) :
    generate_ass_events text duration delay cycle visible =
      spec_ass_events text duration delay cycle visible := by
  unfold generate_ass_events spec_ass_events
  congr 1
  funext c
  unfold ass_cycle_events
  congr 1
  apply takeWhile_eq_filter_of_pairwise
  have hlt := List.pairwise_lt_range' 1 text.length 1 (by omega)
  apply hlt.imp
  intro a b hab hpb
  simp only [decide_eq_true_eq] at hpb ⊢
  have hcast : ((a : Rat) - 1) * delay ≤ ((b : Rat) - 1) * delay := by
    apply mul_le_mul_of_nonneg_right _ hd
    have : (a : Rat) ≤ (b : Rat) := by exact_mod_cast hab.le
    linarith
  linarith

end VideoCompilation

namespace VideoCompilation

/-- Concrete evaluation used for the subtitle claims: the events generated for
`text="HI", duration=25s` with the default `letter_delay=0.1, cycle=20,
visible=10`. -/
theorem ass_events_hi_25_eval :
    generate_ass_events ['H', 'I'] 25 (1/10) 20 10 =
      [{ startTime := 0, endTime := 1/10, revealed := ['H'] },
       { startTime := 1/10, endTime := 10, revealed := ['H', 'I'] },
       { startTime := 20, endTime := 201/10, revealed := ['H'] },
       { startTime := 201/10, endTime := 25, revealed := ['H', 'I'] }] := by
  have hnc : num_cycles 25 20 = 2 := by
    unfold num_cycles
    norm_num [Int.floor_eq_iff]
  unfold generate_ass_events
  rw [hnc]
  rw [show List.range 2 = [0, 1] from rfl]
  simp only [List.flatMap_cons, List.flatMap_nil, List.append_nil]
  unfold ass_cycle_events
  rw [show List.range' 1 (['H', 'I'].length) = [1, 2] from rfl]
  simp only [List.takeWhile_cons]
  norm_num [ass_reveal_event, min_def, List.take]

/-- Claim C5: subtitle synthesis for `text="HI", duration=25s` with
`letter_delay=0.1s, cycle=20s, visible=10s` produces exactly two cycles of
events — (0.0→0.1) "H" and (0.1→10.0) "HI" in cycle 1, (20.0→20.1) "H" and
(20.1→25.0) "HI" in cycle 2, the last end time clamped to the video duration —
and in general (for a nonnegative letter delay) the code's event list is the
cycle-by-cycle list described by the spec: cycles of length `cycle` until the
duration is covered, letter reveals separated by `letter_delay`, the full text
visible until `visible` seconds into the cycle, events starting at or past the
duration omitted and end times clamped. -/
theorem subtitle_synthesis_hi_and_cycles :
    generate_ass_events ['H', 'I'] 25 (1/10) 20 10 =
      [{ startTime := 0, endTime := 1/10, revealed := ['H'] },
       { startTime := 1/10, endTime := 10, revealed := ['H', 'I'] },
       { startTime := 20, endTime := 201/10, revealed := ['H'] },
       { startTime := 201/10, endTime := 25, revealed := ['H', 'I'] }] ∧
    (∀ (text : List Char) (duration delay cycle visible : Rat), 0 ≤ delay →
      generate_ass_events text duration delay cycle visible =
        spec_ass_events text duration delay cycle visible) :=
  ⟨ass_events_hi_25_eval, fun text duration delay cycle visible hd =>
    generate_ass_events_eq_spec text duration delay cycle visible hd⟩

/-- Claim C5 witness: the general clause applied at the concrete instance
`text="HI", duration=25, delay=0.1, cycle=20, visible=10`. -/
theorem subtitle_synthesis_hi_and_cycles_witness :
    generate_ass_events ['H', 'I'] 25 (1/10) 20 10 =
      spec_ass_events ['H', 'I'] 25 (1/10) 20 10 :=
  subtitle_synthesis_hi_and_cycles.2 ['H', 'I'] 25 (1/10) 20 10 (by norm_num)

end VideoCompilation

namespace VideoCompilation

/-- Claim C10 (counterexample): with the default parameters
(`letter_delay=0.1, cycle=20, visible=10`), a 101-character text makes the
last reveal of a cycle start at `cs + 100·0.1 = cs + 10`, exactly where its end
`cs + visible = cs + 10` lies: the generated file contains a zero-length
Dialogue event (start = end), refuting `start < end` for every event
(here with `duration = 25`). -/
theorem ass_event_zero_length_for_long_text :
    ¬ (∀ ev ∈ generate_ass_events (List.replicate 101 'A') 25 (1/10) 20 10,
        ev.startTime < ev.endTime) := by
  intro hall
  have hlen : (List.replicate 101 'A').length = 101 := by simp
  have hmem :
      ass_reveal_event (List.replicate 101 'A') 25 (1/10) 10 0 101 ∈
        generate_ass_events (List.replicate 101 'A') 25 (1/10) 20 10 := by
    unfold generate_ass_events
    rw [List.mem_flatMap]
    refine ⟨0, ?_, ?_⟩
    · have : 0 < num_cycles 25 20 := Nat.succ_pos _
      exact List.mem_range.mpr this
    · unfold ass_cycle_events
      have hTW :
          (List.range' 1 (List.replicate 101 'A').length).takeWhile
              (fun (i : Nat) =>
                decide (((0 : Nat) : Rat) * 20 + ((i : Rat) - 1) * (1/10) < 25)) =
            List.range' 1 (List.replicate 101 'A').length := by
        rw [List.takeWhile_eq_self_iff]
        intro x hx
        rw [hlen] at hx
        have hxb := List.mem_range'_1.mp hx
        have hxle : (x : Rat) ≤ 101 := by
          have hx101 : x ≤ 101 := by omega
          exact_mod_cast hx101
        simp only [decide_eq_true_eq]
        nlinarith
      rw [hTW]
      apply List.mem_map.mpr
      refine ⟨101, ?_, ?_⟩
      · rw [hlen]
        exact List.mem_range'_1.mpr (by omega)
      · norm_num
  have := hall _ hmem
  unfold ass_reveal_event at this
  rw [hlen] at this
  simp only [if_pos rfl] at this
  norm_num at this

/-- Claim C10 (amended): for every non-empty text of at most 100 characters
(so that `(len-1)·letter_delay < visible` under the default parameters
`letter_delay=0.1, cycle=20, visible=10`) and every `video_duration > 0`, each
emitted Dialogue event satisfies `0 ≤ start < end ≤ video_duration`: events
whose start would fall at or past the duration are omitted and end times are
clamped.  For longer texts the last reveal of a cycle can be zero-length or
inverted. -/
theorem ass_events_within_range :
    ∀ (text : List Char) (duration : Rat), text ≠ [] → 0 < duration →
      text.length ≤ 100 →
      ∀ ev ∈ generate_ass_events text duration (1/10) 20 10,
        0 ≤ ev.startTime ∧ ev.startTime < ev.endTime ∧ ev.endTime ≤ duration := by
  intro text duration htne hdpos hlen ev hev
  unfold generate_ass_events at hev
  rcases List.mem_flatMap.mp hev with ⟨c, hc, hevc⟩
  unfold ass_cycle_events at hevc
  rcases List.mem_map.mp hevc with ⟨i, hiTW, hevEq⟩
  have hstart : (((c : Nat) : Rat) * 20 + ((i : Rat) - 1) * (1/10) < duration) := by
    have := List.mem_takeWhile_imp hiTW
    simpa using this
  have hiR : i ∈ List.range' 1 text.length := (List.takeWhile_prefix _).subset hiTW
  have hib := List.mem_range'_1.mp hiR
  have hi1 : 1 ≤ i := hib.1
  have hiLen : i ≤ text.length := by omega
  have hcs0 : (0 : Rat) ≤ ((c : Nat) : Rat) * 20 := by positivity
  have hi1R : (1 : Rat) ≤ (i : Rat) := by exact_mod_cast hi1
  subst hevEq
  unfold ass_reveal_event
  refine ⟨?_, ?_, min_le_right _ _⟩
  · simp only
    nlinarith
  · simp only
    apply lt_min _ hstart
    by_cases hilen : i = text.length
    · rw [if_pos hilen]
      have hlenR : (i : Rat) ≤ 100 := by
        exact_mod_cast (hilen ▸ hlen : i ≤ 100)
      nlinarith
    · rw [if_neg hilen]
      nlinarith

/-- Claim C10 witness: the range theorem applied to the first event generated
for `text="HI", duration=25`. -/
theorem ass_events_within_range_witness :
    (0 : Rat) ≤ (0 : Rat) ∧ (0 : Rat) < (1/10 : Rat) ∧ (1/10 : Rat) ≤ 25 := by
  have h := ass_events_within_range ['H', 'I'] 25 (by simp) (by norm_num)
    (by norm_num)
    { startTime := 0, endTime := 1/10, revealed := ['H'] }
    (by rw [ass_events_hi_25_eval]; simp)
  simpa using h

end VideoCompilation

namespace VideoCompilation

/-- ASCII word character, Python regex `\w` on the ASCII-only strings reaching
this stage of `sanitize_filename` (letters, digits, underscore). -/
def is_word_char (c : Char) : Bool :=
  ('a' ≤ c && c ≤ 'z') || ('A' ≤ c && c ≤ 'Z') || ('0' ≤ c && c ≤ '9') || c = '_'

/-- ASCII whitespace, Python regex `\s` on ASCII. -/
def is_space_char (c : Char) : Bool :=
  c = ' ' || c = '\t' || c = '\n' || c = '\r' || c = '\x0b' || c = '\x0c'

/-- Extension strip of `sanitize_filename`: `filename.rsplit('.', 1)[0]` — the
part before the last dot, or the whole string when there is none. -/
def strip_extension (s : List Char) : List Char :=
  let r := s.reverse.dropWhile (fun c => !(c = '.'))
  if r.isEmpty then s else r.tail.reverse

/-- Composite of `unicodedata.normalize('NFKD', ...)` and
`.encode('ASCII', 'ignore').decode('ASCII')` in `sanitize_filename`.  NFKD is
the identity on ASCII strings, so on ASCII input the composite is exactly the
ASCII filter; this development evaluates the sanitizer on ASCII inputs only. -/
def drop_non_ascii (s : List Char) : List Char :=
  s.filter (fun c => c.toNat ≤ 127)

/-- The substitution `re.sub(r'[^\w\s-]', '', filename)`: characters that are
neither word, whitespace nor hyphen are removed (not replaced). -/
def remove_special (s : List Char) : List Char :=
  s.filter (fun c => is_word_char c || is_space_char c || c = '-')

/-- The substitution `re.sub(r'[-\s]+', '_', filename)`: each maximal run of
hyphens and whitespace becomes a single underscore.  `inRun` records whether
the previous character belonged to the current run. -/
def collapse_runs (inRun : Bool) : List Char → List Char
  | [] => []
  | c :: cs =>
    if is_space_char c || c = '-' then
      if inRun then collapse_runs true cs else '_' :: collapse_runs true cs
    else c :: collapse_runs false cs

/-- Python `str.lower()` on the ASCII characters reaching the final stage. -/
def ascii_to_lower (c : Char) : Char :=
  if 'A' ≤ c && c ≤ 'Z' then Char.ofNat (c.toNat + 32) else c

/-- The move-to-production sanitizer `sanitize_filename`
(backend/api/routes/jobs.py): strip extension, NFKD-normalize and drop
non-ASCII, remove characters that are not word/whitespace/hyphen, collapse runs
of hyphens and whitespace to `_`, lowercase. -/
def sanitize_filename (s : List Char) : List Char :=
  (collapse_runs false (remove_special (drop_non_ascii (strip_extension s)))).map
    ascii_to_lower

/-- Sanitizer as the claim words it: strip extension, NFKD-normalize, drop
non-ASCII, replace each non-word character with `_`, lowercase.  This follows
the spec's words, for comparison with `sanitize_filename` which follows the
code. -/
def spec_sanitize (s : List Char) : List Char :=
  ((drop_non_ascii (strip_extension s)).map
      (fun c => if is_word_char c then c else '_')).map
    ascii_to_lower

/-- Claim C7 (counterexample): the sanitizer removes a non-word character
between word characters instead of replacing it with an underscore:
`"foo@bar"` becomes `"foobar"`, while the claimed replace-with-`_` rule would
give `"foo_bar"`. -/
theorem sanitize_filename_drops_at_sign :
    sanitize_filename "foo@bar".data = "foobar".data ∧
    spec_sanitize "foo@bar".data = "foo_bar".data ∧
    sanitize_filename "foo@bar".data ≠ spec_sanitize "foo@bar".data := by
  decide

end VideoCompilation

namespace VideoCompilation

/-- Characters produced by `collapse_runs` are underscores or non-run characters
of the input. -/
theorem mem_collapse_runs {b : Char} :
    ∀ (flag : Bool) (l : List Char), b ∈ collapse_runs flag l →
      b = '_' ∨ (b ∈ l ∧ (is_space_char b || b = '-') = false) := by
  intro flag l
  induction l generalizing flag with
  | nil => intro h; cases h
  | cons a l ih =>
    intro h
    unfold collapse_runs at h
    by_cases ha : (is_space_char a || a = '-') = true
    · rw [if_pos ha] at h
      cases flag with
      | true =>
        rcases ih true h with h' | ⟨hmem, hrun⟩
        · exact Or.inl h'
        · exact Or.inr ⟨List.mem_cons_of_mem a hmem, hrun⟩
      | false =>
        rw [if_neg Bool.false_ne_true] at h
        rcases List.mem_cons.mp h with h' | h'
        · exact Or.inl h'
        · rcases ih true h' with h'' | ⟨hmem, hrun⟩
          · exact Or.inl h''
          · exact Or.inr ⟨List.mem_cons_of_mem a hmem, hrun⟩
    · rw [if_neg ha] at h
      rcases List.mem_cons.mp h with h' | h'
      · subst h'
        exact Or.inr ⟨List.mem_cons_self _ _, Bool.eq_false_iff.mpr ha⟩
      · rcases ih false h' with h'' | ⟨hmem, hrun⟩
        · exact Or.inl h''
        · exact Or.inr ⟨List.mem_cons_of_mem a hmem, hrun⟩

/-- Lowercasing a word character yields a lowercase letter, a digit or an
underscore. -/
theorem ascii_to_lower_word {b : Char} (hb : is_word_char b = true) :
    ('a' ≤ ascii_to_lower b ∧ ascii_to_lower b ≤ 'z') ∨
      ('0' ≤ ascii_to_lower b ∧ ascii_to_lower b ≤ '9') ∨ ascii_to_lower b = '_' := by
  unfold is_word_char at hb
  simp only [Bool.or_eq_true, Bool.and_eq_true, decide_eq_true_eq] at hb
  unfold ascii_to_lower
  by_cases hAZ : ('A' ≤ b && b ≤ 'Z') = true
  · rw [if_pos hAZ]
    simp only [Bool.and_eq_true, decide_eq_true_eq] at hAZ
    have h65 : 65 ≤ b.toNat := hAZ.1
    have h90 : b.toNat ≤ 90 := hAZ.2
    have htn : (Char.ofNat (b.toNat + 32)).toNat = b.toNat + 32 := by
      have hvc : (b.toNat + 32).isValidChar := Or.inl (by omega)
      unfold Char.ofNat
      rw [dif_pos hvc]
      unfold Char.ofNatAux Char.toNat
      simp [UInt32.toNat]
    left
    constructor
    · show 'a'.toNat ≤ (Char.ofNat (b.toNat + 32)).toNat
      rw [htn]
      show 97 ≤ b.toNat + 32
      omega
    · show (Char.ofNat (b.toNat + 32)).toNat ≤ 'z'.toNat
      rw [htn]
      show b.toNat + 32 ≤ 122
      omega
  · rw [if_neg hAZ]
    rcases hb with ((⟨h1, h2⟩ | ⟨h1, h2⟩) | ⟨h1, h2⟩) | h1
    · exact Or.inl ⟨h1, h2⟩
    · refine absurd ?_ hAZ
      simp only [Bool.and_eq_true, decide_eq_true_eq]
      exact ⟨h1, h2⟩
    · exact Or.inr (Or.inl ⟨h1, h2⟩)
    · subst h1
      exact Or.inr (Or.inr rfl)

/-- Claim C7 (amended): the sanitizer strips the extension, NFKD-normalizes and
drops non-ASCII characters, removes characters that are neither word,
whitespace nor hyphen (so `"foo@bar"` yields `"foobar"`, with the `@` deleted
rather than replaced), collapses each run of whitespace and hyphens to a single
underscore (`"Foo Bar-Baz.mp4"` yields `"foo_bar_baz"`), and lowercases; every
character of the result is a lowercase letter, a digit or an underscore. -/
theorem sanitize_filename_characterization :
    sanitize_filename "foo@bar".data = "foobar".data ∧
    sanitize_filename "Foo Bar-Baz.mp4".data = "foo_bar_baz".data ∧
    (∀ (s : List Char), ∀ c ∈ sanitize_filename s,
      ('a' ≤ c ∧ c ≤ 'z') ∨ ('0' ≤ c ∧ c ≤ '9') ∨ c = '_') := by
  refine ⟨by decide, by decide, ?_⟩
  intro s c hc
  unfold sanitize_filename at hc
  rcases List.mem_map.mp hc with ⟨b, hbmem, hbeq⟩
  subst hbeq
  rcases mem_collapse_runs false _ hbmem with hb | ⟨hbmem', hbrun⟩
  · subst hb
    exact Or.inr (Or.inr (by decide))
  · have hbw := (List.mem_filter.mp hbmem').2
    simp only at hbw
    have hrun2 : is_space_char b = false ∧ ¬(b = '-') := by
      simpa only [Bool.or_eq_false_iff, decide_eq_false_iff_not] using hbrun
    have hword : is_word_char b = true := by
      simp only [Bool.or_eq_true, decide_eq_true_eq] at hbw
      rcases hbw with (hw | hs) | hd
      · exact hw
      · rw [hrun2.1] at hs
        cases hs
      · exact absurd hd hrun2.2
    exact ascii_to_lower_word hword

/-- Claim C7 witness: the characterization applied to the first character of
`sanitize_filename "foo@bar"`. -/
theorem sanitize_filename_characterization_witness :
    ('a' ≤ 'f' ∧ 'f' ≤ 'z') ∨ ('0' ≤ 'f' ∧ 'f' ≤ '9') ∨ 'f' = '_' :=
  sanitize_filename_characterization.2.2 "foo@bar".data 'f' (by decide)

end VideoCompilation

namespace VideoCompilation

/-- Python `str.strip()` / `.strip('"')` / `.strip("'")` building block: drop
the matching characters from the end of the list. -/
def drop_end_while (p : Char → Bool) (l : List Char) : List Char :=
  (l.reverse.dropWhile p).reverse

/-- Strip characters satisfying `p` from both ends. -/
def strip_on (p : Char → Bool) (l : List Char) : List Char :=
  drop_end_while p (l.dropWhile p)

/-- The quote removal of `normalize_paths`:
`path.strip().strip('"').strip("'")`. -/
def strip_py (l : List Char) : List Char :=
  strip_on (fun c => c = '\'') (strip_on (fun c => c = '"') (strip_on is_space_char l))

/-- Python `str.split(sep)` for a one-character separator.  `"".split` gives
`[""]`, and a separator at either end produces an empty part. -/
def split_on_char (sep : Char) : List Char → List (List Char)
  | [] => [[]]
  | c :: cs =>
    match split_on_char sep cs with
    | [] => [[c]]
    | h :: t => if c = sep then [] :: h :: t else (c :: h) :: t

/-- Python `sep.join(parts)` for a one-character separator. -/
def join_sep (sep : Char) : List (List Char) → List Char
  | [] => []
  | [x] => x
  | x :: y :: t => x ++ sep :: join_sep sep (y :: t)

/-- Python `str.replace(a, b)` for one-character `a` and `b`. -/
def replace_char (a b : Char) (l : List Char) : List Char :=
  l.map (fun c => if c = a then b else c)

/-- Python `str.replace(pat, rep)` for a string pattern: replaces every
non-overlapping occurrence, scanning left to right. -/
def replace_str (pat rep : List Char) : List Char → List Char
  | [] => []
  | c :: cs =>
    if h : pat ≠ [] ∧ pat.isPrefixOf (c :: cs) then
      rep ++ replace_str pat rep ((c :: cs).drop pat.length)
    else
      c :: replace_str pat rep cs
termination_by l => l.length
decreasing_by
  · simp only [List.length_drop, List.length_cons]
    have : 1 ≤ pat.length := by
      cases hp : pat with
      | nil => exact absurd hp h.1
      | cons a as => simp
    omega
  · simp

/-- Python `str.rstrip('/')`. -/
def rstrip_char (a : Char) (l : List Char) : List Char :=
  drop_end_while (fun c => c = a) l

/-- The `SHARE_MAPPINGS` table of backend/services/storage.py (share ↔ drive
letter). -/
def SHARE_MAPPINGS : List (List Char × List Char) :=
  [("Share".data, "S:".data), ("Share2".data, "T:".data), ("Share3".data, "U:".data),
   ("Share4".data, "V:".data), ("Share5".data, "W:".data),
   ("New_Share_1".data, "O:".data), ("New_Share_2".data, "P:".data),
   ("New_Share_3".data, "Q:".data), ("New_Share_4".data, "R:".data)]

/-- The `DOCKER_MOUNTS` table of backend/services/storage.py (share ↔ container
mount). -/
def DOCKER_MOUNTS : List (List Char × List Char) :=
  [("Share".data, "/mnt/share".data), ("Share2".data, "/mnt/share2".data),
   ("Share3".data, "/mnt/share3".data), ("Share4".data, "/mnt/share4".data),
   ("Share5".data, "/mnt/share5".data)]

/-- First share whose mapped drive equals `drive` (the lookup loop in case 3 of
`normalize_paths`). -/
def lookup_share_by_drive (drive : List Char) : Option (List Char) :=
  (SHARE_MAPPINGS.find? (fun p => p.2 == drive)).map (fun p => p.1)

/-- Container mount for a share (`share_name in DOCKER_MOUNTS` plus the dict
access). -/
def docker_mount (share : List Char) : Option (List Char) :=
  (DOCKER_MOUNTS.find? (fun p => p.1 == share)).map (fun p => p.2)

/-- The UNC prefix `\\192.168.1.6\` used by `normalize_paths`. -/
def unc_root : List Char := "\\\\192.168.1.6\\".data

/-- One path through `normalize_paths` (backend/services/storage.py), the
per-element body of the loop.  `docker` is the `IS_DOCKER` flag: `true` models
the container host (shares mounted under `/mnt`), `false` the direct-access
host (UNC targets).  Cases, in the source's order: `smb://` URL, `/Volumes/`
path, drive letter, UNC, otherwise pass-through. -/
def normalize_one (docker : Bool) (p0 : List Char) : List Char :=
  if p0.isEmpty then p0
  else
    let path := strip_py p0
    if ("smb://".data).isPrefixOf path then
      let parts := split_on_char '/' (replace_str "smb://".data [] path)
      if 2 ≤ parts.length then
        let share := parts.getD 1 []
        let remaining := join_sep '/' (parts.drop 2)
        if docker && (docker_mount share).isSome then
          rstrip_char '/' ((docker_mount share).getD [] ++ '/' :: remaining)
        else
          replace_char '/' '\\' (unc_root ++ share ++ '\\' :: remaining)
      else
        replace_char '/' '\\' (replace_str "smb://".data "\\\\".data path)
    else if ("/Volumes/".data).isPrefixOf path then
      let parts := split_on_char '/' path
      if 3 ≤ parts.length then
        let share := parts.getD 2 []
        let remaining := join_sep '/' (parts.drop 3)
        if docker && (docker_mount share).isSome then
          rstrip_char '/' ((docker_mount share).getD [] ++ '/' :: remaining)
        else
          replace_char '/' '\\' (unc_root ++ share ++ '\\' :: remaining)
      else
        path
    else if 2 ≤ path.length ∧ path.getD 1 ' ' = ':' then
      match lookup_share_by_drive (path.take 2) with
      | some share =>
        let remaining := (path.drop 2).dropWhile (fun c => c = '\\')
        if docker && (docker_mount share).isSome then
          replace_char '\\' '/' ((docker_mount share).getD [] ++ '/' :: remaining)
        else
          unc_root ++ share ++ '\\' :: remaining
      | none => path
    else if ("\\\\".data).isPrefixOf path then
      let parts := split_on_char '\\' path
      if 4 ≤ parts.length then
        let share := parts.getD 3 []
        let remaining := join_sep '\\' (parts.drop 4)
        if docker && (docker_mount share).isSome then
          replace_char '\\' '/' ((docker_mount share).getD [] ++ '/' :: remaining)
        else
          replace_char '/' '\\' path
      else
        path
    else
      path

/-- The batch normalizer `normalize_paths`: element-wise, order preserving. -/
def normalize_paths (docker : Bool) (paths : List (List Char)) : List (List Char) :=
  paths.map (normalize_one docker)

/-- The single-path wrapper `normalize_path_for_server`. -/
def normalize_path_for_server (docker : Bool) (p : List Char) : List Char :=
  normalize_one docker p

end VideoCompilation

namespace VideoCompilation

/-- Claim C4 (counterexample): path normalization is not idempotent.  On the
direct-access host the drive-letter path `V:/foo` (forward slash after the
drive) normalizes to `\\192.168.1.6\Share4\/foo`, which a second pass rewrites
to `\\192.168.1.6\Share4\\foo`; on the container host the same happens for
`O:/foo` (New_Share_1 has no container mount, so it becomes a UNC path whose
forward slash the second pass replaces); and on either host a quoted input such
as `" a"` (with a space inside the quotes) strips to ` a` on the first pass and
to `a` on the second. -/
theorem normalize_not_idempotent :
    normalize_path_for_server false (normalize_path_for_server false "V:/foo".data) ≠
      normalize_path_for_server false "V:/foo".data ∧
    normalize_path_for_server true (normalize_path_for_server true "O:/foo".data) ≠
      normalize_path_for_server true "O:/foo".data ∧
    normalize_path_for_server false (normalize_path_for_server false "\" a\"".data) ≠
      normalize_path_for_server false "\" a\"".data := by
  refine ⟨by decide, by decide, by decide⟩

end VideoCompilation

namespace VideoCompilation

/-- Characters that the quote/whitespace stripping of `normalize_paths` leaves
alone: not whitespace, not a double quote, not an apostrophe. -/
def good_char (c : Char) : Bool :=
  !(is_space_char c || c = '"' || c = '\'')

theorem dropWhile_eq_self_of_all {p : Char → Bool} {l : List Char}
    (h : ∀ c ∈ l, p c = false) : l.dropWhile p = l := by
  cases l with
  | nil => rfl
  | cons a l =>
    rw [List.dropWhile_cons, if_neg]
    rw [h a (List.mem_cons_self a l)]
    simp

theorem drop_end_while_eq_self_of_all {p : Char → Bool} {l : List Char}
    (h : ∀ c ∈ l, p c = false) : drop_end_while p l = l := by
  unfold drop_end_while
  rw [dropWhile_eq_self_of_all fun c hc => h c (List.mem_reverse.mp hc)]
  exact List.reverse_reverse l

theorem strip_py_eq_self {l : List Char} (h : ∀ c ∈ l, good_char c = true) :
    strip_py l = l := by
  have hgood : ∀ c ∈ l, is_space_char c = false ∧ (c = '"' → False) ∧ (c = '\'' → False) := by
    intro c hc
    have := h c hc
    unfold good_char at this
    simp only [Bool.not_eq_eq_eq_not, Bool.not_true, Bool.or_eq_false_iff,
      decide_eq_false_iff_not] at this
    exact ⟨this.1.1, this.1.2, this.2⟩
  have h1 : strip_on is_space_char l = l := by
    unfold strip_on
    rw [dropWhile_eq_self_of_all fun c hc => (hgood c hc).1]
    exact drop_end_while_eq_self_of_all fun c hc => (hgood c hc).1
  have h2 : strip_on (fun c => c = '"') l = l := by
    unfold strip_on
    rw [dropWhile_eq_self_of_all fun c hc => (by
      simp only [decide_eq_false_iff_not]; exact (hgood c hc).2.1)]
    exact drop_end_while_eq_self_of_all fun c hc => (by
      simp only [decide_eq_false_iff_not]; exact (hgood c hc).2.1)
  have h3 : strip_on (fun c => c = '\'') l = l := by
    unfold strip_on
    rw [dropWhile_eq_self_of_all fun c hc => (by
      simp only [decide_eq_false_iff_not]; exact (hgood c hc).2.2)]
    exact drop_end_while_eq_self_of_all fun c hc => (by
      simp only [decide_eq_false_iff_not]; exact (hgood c hc).2.2)
  unfold strip_py
  rw [h1, h2, h3]

theorem mem_of_mem_drop_end_while {p : Char → Bool} {l : List Char} {c : Char}
    (h : c ∈ drop_end_while p l) : c ∈ l := by
  unfold drop_end_while at h
  rw [List.mem_reverse] at h
  exact List.mem_reverse.mp ((List.dropWhile_sublist _).subset h)

theorem dropWhile_append_cons {p : Char → Bool} (u : List Char) {c : Char}
    (hc : p c = false) (v : List Char) :
    (u ++ c :: v).dropWhile p = u.dropWhile p ++ c :: v := by
  induction u with
  | nil =>
    simp only [List.nil_append, List.dropWhile_cons, hc]
    simp
  | cons a u ih =>
    simp only [List.cons_append, List.dropWhile_cons]
    by_cases ha : p a = true
    · rw [ha]
      simpa using ih
    · rw [Bool.eq_false_iff.mpr ha]
      simp

theorem drop_end_while_append_cons {p : Char → Bool} (u : List Char) {c : Char}
    (hc : p c = false) (v : List Char) :
    drop_end_while p (u ++ c :: v) = u ++ c :: drop_end_while p v := by
  unfold drop_end_while
  rw [List.reverse_append, List.reverse_cons, List.append_assoc,
    List.singleton_append]
  rw [dropWhile_append_cons _ hc]
  rw [List.reverse_append]
  simp [drop_end_while]

end VideoCompilation

namespace VideoCompilation

theorem split_on_char_ne_nil (sep : Char) (l : List Char) :
    split_on_char sep l ≠ [] := by
  cases l with
  | nil => simp [split_on_char]
  | cons c cs =>
    unfold split_on_char
    cases hs : split_on_char sep cs with
    | nil => simp
    | cons h t =>
      by_cases hc : c = sep <;> simp [hc]

theorem split_on_char_sep (sep : Char) (w : List Char) :
    split_on_char sep (sep :: w) = [] :: split_on_char sep w := by
  conv_lhs => unfold split_on_char
  cases hs : split_on_char sep w with
  | nil => exact absurd hs (split_on_char_ne_nil sep w)
  | cons h t => simp

theorem split_on_char_cons_ne {sep c : Char} (hc : ¬ c = sep) (w : List Char) :
    ∃ h t, split_on_char sep w = h :: t ∧ split_on_char sep (c :: w) = (c :: h) :: t := by
  cases hs : split_on_char sep w with
  | nil => exact absurd hs (split_on_char_ne_nil sep w)
  | cons h t =>
    refine ⟨h, t, rfl, ?_⟩
    unfold split_on_char
    rw [hs]
    simp [hc]

theorem split_on_char_sep_free {sep : Char} {a : List Char} (ha : sep ∉ a) :
    split_on_char sep a = [a] := by
  induction a with
  | nil => rfl
  | cons c cs ih =>
    have hc : ¬ c = sep := fun h => ha (h ▸ List.mem_cons_self c cs)
    rcases split_on_char_cons_ne hc cs with ⟨h, t, hsp, hres⟩
    rw [ih (fun hm => ha (List.mem_cons_of_mem c hm))] at hsp
    cases hsp
    exact hres

theorem split_on_char_append {sep : Char} {a : List Char} (ha : sep ∉ a)
    (b : List Char) :
    split_on_char sep (a ++ sep :: b) = a :: split_on_char sep b := by
  induction a with
  | nil => simpa using split_on_char_sep sep b
  | cons c cs ih =>
    have hc : ¬ c = sep := fun h => ha (h ▸ List.mem_cons_self c cs)
    have ih' := ih (fun hm => ha (List.mem_cons_of_mem c hm))
    rcases split_on_char_cons_ne hc (cs ++ sep :: b) with ⟨h, t, hsp, hres⟩
    rw [ih'] at hsp
    cases hsp
    simpa using hres

theorem join_sep_split_on_char (sep : Char) (l : List Char) :
    join_sep sep (split_on_char sep l) = l := by
  induction l with
  | nil => rfl
  | cons c cs ih =>
    by_cases hc : c = sep
    · subst hc
      rw [split_on_char_sep]
      cases hs : split_on_char c cs with
      | nil => exact absurd hs (split_on_char_ne_nil c cs)
      | cons h t =>
        rw [hs] at ih
        unfold join_sep
        rw [ih]
        simp
    · rcases split_on_char_cons_ne hc cs with ⟨h, t, hsp, hres⟩
      rw [hres]
      rw [hsp] at ih
      cases t with
      | nil =>
        unfold join_sep at ih ⊢
        rw [ih]
      | cons y t' =>
        unfold join_sep at ih ⊢
        rw [List.cons_append, ih]

theorem split_on_char_mem {sep : Char} {l : List Char} {seg : List Char}
    (hseg : seg ∈ split_on_char sep l) :
    sep ∉ seg ∧ ∀ c ∈ seg, c ∈ l := by
  induction l generalizing seg with
  | nil =>
    simp only [split_on_char, List.mem_singleton] at hseg
    subst hseg
    exact ⟨fun h => absurd h (List.not_mem_nil _), fun c hc => absurd hc (List.not_mem_nil _)⟩
  | cons a l ih =>
    by_cases ha : a = sep
    · subst ha
      rw [split_on_char_sep] at hseg
      rcases List.mem_cons.mp hseg with h | h
      · subst h
        exact ⟨fun h => absurd h (List.not_mem_nil _), fun c hc => absurd hc (List.not_mem_nil _)⟩
      · rcases ih h with ⟨h1, h2⟩
        exact ⟨h1, fun c hc => List.mem_cons_of_mem a (h2 c hc)⟩
    · rcases split_on_char_cons_ne ha l with ⟨h, t, hsp, hres⟩
      rw [hres] at hseg
      rcases List.mem_cons.mp hseg with hm | hm
      · subst hm
        have hh : h ∈ split_on_char sep l := by rw [hsp]; exact List.mem_cons_self h t
        rcases ih hh with ⟨h1, h2⟩
        constructor
        · intro hmem
          rcases List.mem_cons.mp hmem with he | he
          · exact ha he.symm
          · exact h1 he
        · intro c hc
          rcases List.mem_cons.mp hc with he | he
          · exact he ▸ List.mem_cons_self a l
          · exact List.mem_cons_of_mem a (h2 c he)
      · have hh : seg ∈ split_on_char sep l := by rw [hsp]; exact List.mem_cons_of_mem h hm
        rcases ih hh with ⟨h1, h2⟩
        exact ⟨h1, fun c hc => List.mem_cons_of_mem a (h2 c hc)⟩

theorem split_on_char_two_le_of_mem {sep : Char} {l : List Char} (h : sep ∈ l) :
    2 ≤ (split_on_char sep l).length := by
  induction l with
  | nil => cases h
  | cons a l ih =>
    by_cases ha : a = sep
    · subst ha
      rw [split_on_char_sep]
      have := split_on_char_ne_nil a l
      cases hs : split_on_char a l with
      | nil => exact absurd hs this
      | cons x t => simp
    · rcases List.mem_cons.mp h with he | he
      · exact absurd he.symm ha
      · rcases split_on_char_cons_ne ha l with ⟨x, t, hsp, hres⟩
        have := ih he
        rw [hsp] at this
        rw [hres]
        simpa using this

theorem mem_join_sep {sep : Char} {ls : List (List Char)} {c : Char}
    (h : c ∈ join_sep sep ls) : c = sep ∨ ∃ seg ∈ ls, c ∈ seg := by
  induction ls with
  | nil => cases h
  | cons x ls ih =>
    cases ls with
    | nil =>
      simp only [join_sep] at h
      exact Or.inr ⟨x, List.mem_cons_self x [], h⟩
    | cons y t =>
      unfold join_sep at h
      rcases List.mem_append.mp h with hx | hrest
      · exact Or.inr ⟨x, List.mem_cons_self x _, hx⟩
      · rcases List.mem_cons.mp hrest with he | hm
        · exact Or.inl he
        · rcases ih hm with he | ⟨seg, hseg, hcseg⟩
          · exact Or.inl he
          · exact Or.inr ⟨seg, List.mem_cons_of_mem x hseg, hcseg⟩

end VideoCompilation

namespace VideoCompilation

theorem replace_char_append (a b : Char) (u v : List Char) :
    replace_char a b (u ++ v) = replace_char a b u ++ replace_char a b v :=
  List.map_append _ u v

theorem replace_char_cons (a b c : Char) (l : List Char) :
    replace_char a b (c :: l) = (if c = a then b else c) :: replace_char a b l :=
  rfl

theorem replace_char_eq_self {a : Char} (b : Char) {l : List Char} (h : a ∉ l) :
    replace_char a b l = l := by
  induction l with
  | nil => rfl
  | cons c cs ih =>
    rw [replace_char_cons,
      if_neg (fun hc => h (by rw [← hc]; exact List.mem_cons_self c cs)),
      ih (fun hm => h (List.mem_cons_of_mem c hm))]

theorem mem_replace_char {a b c : Char} {l : List Char}
    (h : c ∈ replace_char a b l) : c ∈ l ∨ c = b := by
  rcases List.mem_map.mp h with ⟨x, hx, hxc⟩
  by_cases hxa : x = a
  · rw [hxa, if_pos rfl] at hxc
    exact Or.inr hxc.symm
  · rw [if_neg hxa] at hxc
    exact Or.inl (hxc ▸ hx)

theorem not_mem_replace_char {a b : Char} (hab : ¬ a = b) (l : List Char) :
    a ∉ replace_char a b l := by
  intro h
  rcases List.mem_map.mp h with ⟨x, _, hxc⟩
  by_cases hxa : x = a
  · rw [hxa, if_pos rfl] at hxc
    exact hab hxc.symm
  · rw [if_neg hxa] at hxc
    exact hxa (hxc ▸ rfl)

theorem replace_str_append_pat (pat rep t : List Char) (hp : pat ≠ []) :
    replace_str pat rep (pat ++ t) = rep ++ replace_str pat rep t := by
  cases hpat : pat with
  | nil => exact absurd hpat hp
  | cons p ps =>
    rw [show (p :: ps) ++ t = p :: (ps ++ t) from rfl]
    rw [replace_str]
    rw [dif_pos ⟨by simp, by
      rw [show p :: (ps ++ t) = (p :: ps) ++ t from rfl]
      exact List.isPrefixOf_iff_prefix.mpr (List.prefix_append _ _)⟩]
    congr 1
    rw [show p :: (ps ++ t) = (p :: ps) ++ t from rfl]
    rw [show (p :: ps).length = (p :: ps).length from rfl]
    rw [List.drop_left]

theorem replace_str_eq_self {pat rep t : List Char} {c0 : Char}
    (hc : c0 ∈ pat) (hn : c0 ∉ t) : replace_str pat rep t = t := by
  induction t with
  | nil => rw [replace_str]
  | cons c cs ih =>
    rw [replace_str]
    rw [dif_neg (fun hpre => hn ((List.isPrefixOf_iff_prefix.mp hpre.2).subset hc))]
    rw [ih (fun hm => hn (List.mem_cons_of_mem c hm))]

/-- A successful docker-mount lookup yields a pair of the table. -/
theorem docker_mount_mem {s m : List Char} (h : docker_mount s = some m) :
    (s, m) ∈ DOCKER_MOUNTS := by
  unfold docker_mount at h
  cases hf : DOCKER_MOUNTS.find? (fun p => p.1 == s) with
  | none => rw [hf] at h; cases h
  | some p =>
    rw [hf] at h
    simp only [Option.map_some'] at h
    have hp2 : p.2 = m := Option.some.inj h
    have hmem := List.mem_of_find?_eq_some hf
    have hps : p.1 = s := by
      simpa using List.find?_some hf
    have hpe : p = (s, m) := by
      cases p with
      | mk a b =>
        simp only at hps hp2
        rw [hps, hp2]
    exact hpe ▸ hmem

/-- A successful drive lookup yields a share of the table. -/
theorem lookup_share_mem {d s : List Char} (h : lookup_share_by_drive d = some s) :
    ∃ dr, (s, dr) ∈ SHARE_MAPPINGS := by
  unfold lookup_share_by_drive at h
  cases hf : SHARE_MAPPINGS.find? (fun p => p.2 == d) with
  | none => rw [hf] at h; cases h
  | some p =>
    rw [hf] at h
    simp only [Option.map_some'] at h
    have hp1 : p.1 = s := Option.some.inj h
    have hmem := List.mem_of_find?_eq_some hf
    refine ⟨p.2, ?_⟩
    have hpe : p = (s, p.2) := by
      cases p with
      | mk a b =>
        simp only at hp1
        rw [hp1]
    exact hpe ▸ hmem

end VideoCompilation

namespace VideoCompilation

theorem smb_prefix_cons_false {c : Char} (hc : ¬ c = 's') (w : List Char) :
    ("smb://".data).isPrefixOf (c :: w) = false := by
  show ('s' == c && ("mb://".data).isPrefixOf w) = false
  rw [beq_eq_false_iff_ne.mpr (fun h => hc h.symm)]
  rw [Bool.false_and]

theorem vol_prefix_cons_false {c : Char} (hc : ¬ c = '/') (w : List Char) :
    ("/Volumes/".data).isPrefixOf (c :: w) = false := by
  show ('/' == c && ("Volumes/".data).isPrefixOf w) = false
  rw [beq_eq_false_iff_ne.mpr (fun h => hc h.symm)]
  rw [Bool.false_and]

theorem vol_prefix_cons2_false {c : Char} (hc : ¬ c = 'V') (w : List Char) :
    ("/Volumes/".data).isPrefixOf ('/' :: c :: w) = false := by
  show ('/' == '/' && ('V' == c && ("olumes/".data).isPrefixOf w)) = false
  rw [beq_eq_false_iff_ne.mpr (fun h => hc h.symm)]
  simp

theorem unc_prefix_cons_false {c : Char} (hc : ¬ c = '\\') (w : List Char) :
    ("\\\\".data).isPrefixOf (c :: w) = false := by
  show ('\\' == c && ("\\".data).isPrefixOf w) = false
  rw [beq_eq_false_iff_ne.mpr (fun h => hc h.symm)]
  rw [Bool.false_and]

/-- Container-mount outputs (`/mnt/...`) are fixed points of the normalizer:
no case of `normalize_paths` matches a clean string starting `/m`. -/
theorem slash_m_fixed (docker : Bool) (t : List Char)
    (h : ∀ c ∈ ('/' :: 'm' :: t), good_char c = true) :
    normalize_one docker ('/' :: 'm' :: t) = '/' :: 'm' :: t := by
  unfold normalize_one
  rw [if_neg (by simp)]
  simp only [strip_py_eq_self h,
    smb_prefix_cons_false (show ¬ '/' = 's' by decide),
    vol_prefix_cons2_false (show ¬ 'm' = 'V' by decide),
    unc_prefix_cons_false (show ¬ '/' = '\\' by decide),
    Bool.false_eq_true, if_false]
  rw [if_neg]
  simp only [List.getD_cons_succ, List.getD_cons_zero]
  intro hcon
  exact absurd hcon.2 (by decide)

end VideoCompilation

namespace VideoCompilation

theorem unc_prefix_cons2_true (w : List Char) :
    ("\\\\".data).isPrefixOf ('\\' :: '\\' :: w) = true := by
  show ('\\' == '\\' && ('\\' == '\\' && ([] : List Char).isPrefixOf w)) = true
  simp [List.isPrefixOf]

/-- Good characters of the fixed UNC root. -/
theorem unc_root_good : ∀ c ∈ unc_root, good_char c = true := by decide

theorem unc_root_no_slash : '/' ∉ unc_root := by decide

/-- UNC outputs of `normalize_paths` are fixed points: the second pass takes
the UNC branch, recovers the same share, and the final slash replacement is the
identity because the string has no forward slash left. -/
theorem unc_fixed (docker : Bool) (share rem : List Char)
    (hcs : ∀ c ∈ share, good_char c = true)
    (hcr : ∀ c ∈ rem, good_char c = true)
    (hsb : '\\' ∉ share) (hss : '/' ∉ share) (hrs : '/' ∉ rem)
    (hdm : docker = true → docker_mount share = none) :
    normalize_one docker (unc_root ++ share ++ '\\' :: rem) =
      unc_root ++ share ++ '\\' :: rem := by
  have hX : unc_root ++ share ++ '\\' :: rem =
      '\\' :: '\\' :: ("192.168.1.6".data ++ '\\' :: (share ++ '\\' :: rem)) := rfl
  have hclean : ∀ c ∈ unc_root ++ share ++ '\\' :: rem, good_char c = true := by
    intro c hc
    rcases List.mem_append.mp hc with hus | hcr'
    · rcases List.mem_append.mp hus with hu | hs
      · exact unc_root_good c hu
      · exact hcs c hs
    · rcases List.mem_cons.mp hcr' with he | hr
      · subst he
        decide
      · exact hcr c hr
  have hnoslash : '/' ∉ unc_root ++ share ++ '\\' :: rem := by
    intro hc
    rcases List.mem_append.mp hc with hus | hcr'
    · rcases List.mem_append.mp hus with hu | hs
      · exact unc_root_no_slash hu
      · exact hss hs
    · rcases List.mem_cons.mp hcr' with he | hr
      · cases he
      · exact hrs hr
  have hparts : split_on_char '\\' (unc_root ++ share ++ '\\' :: rem) =
      [] :: [] :: "192.168.1.6".data :: share :: split_on_char '\\' rem := by
    rw [hX, split_on_char_sep, split_on_char_sep,
      split_on_char_append (by decide),
      split_on_char_append hsb]
  have hdockercond : (docker && (docker_mount share).isSome) = false := by
    cases docker with
    | false => rfl
    | true =>
      rw [hdm rfl]
      rfl
  have hdrivecond : ∀ (w : List Char),
      ¬(2 ≤ ('\\' :: '\\' :: w).length ∧ ('\\' :: '\\' :: w).getD 1 ' ' = ':') := by
    intro w hcon
    simp only [List.getD_cons_succ, List.getD_cons_zero] at hcon
    exact absurd hcon.2 (by decide)
  unfold normalize_one
  rw [if_neg (by rw [hX]; simp)]
  simp only [strip_py_eq_self hclean]
  rw [hX]
  simp only [smb_prefix_cons_false (show ¬ '\\' = 's' by decide),
    vol_prefix_cons_false (show ¬ '\\' = '/' by decide),
    Bool.false_eq_true, if_false]
  rw [if_neg (hdrivecond _)]
  rw [unc_prefix_cons2_true, if_pos rfl]
  rw [← hX, hparts]
  simp only [List.length_cons, List.getD_cons_succ, List.getD_cons_zero,
    List.drop_succ_cons, List.drop_zero]
  rw [if_pos (by omega)]
  rw [hdockercond]
  simp only [Bool.false_eq_true, if_false]
  exact replace_char_eq_self '\\' hnoslash

/-- A UNC-like string `\\t` with no further backslash splits into fewer than
four parts, so the normalizer returns it unchanged. -/
theorem unc_short_fixed (docker : Bool) (t : List Char)
    (hclean : ∀ c ∈ ('\\' :: '\\' :: t), good_char c = true) (hnb : '\\' ∉ t) :
    normalize_one docker ('\\' :: '\\' :: t) = '\\' :: '\\' :: t := by
  have hparts : split_on_char '\\' ('\\' :: '\\' :: t) = [[], [], t] := by
    rw [split_on_char_sep, split_on_char_sep, split_on_char_sep_free hnb]
  have hdrivecond :
      ¬(2 ≤ ('\\' :: '\\' :: t).length ∧ ('\\' :: '\\' :: t).getD 1 ' ' = ':') := by
    intro hcon
    simp only [List.getD_cons_succ, List.getD_cons_zero] at hcon
    exact absurd hcon.2 (by decide)
  unfold normalize_one
  rw [if_neg (by simp)]
  simp only [strip_py_eq_self hclean]
  simp only [smb_prefix_cons_false (show ¬ '\\' = 's' by decide),
    vol_prefix_cons_false (show ¬ '\\' = '/' by decide),
    Bool.false_eq_true, if_false]
  rw [if_neg hdrivecond]
  rw [unc_prefix_cons2_true, if_pos rfl, hparts]
  rw [if_neg (by simp)]

end VideoCompilation

namespace VideoCompilation

/-- Structure of the five container-mount strings: each is `/m…` followed by a
final non-slash character, contains only good characters and no backslash. -/
theorem mount_decomp {s m : List Char} (hm : docker_mount s = some m) :
    ∃ u cl, m = ('/' :: 'm' :: u) ++ [cl] ∧ ¬ cl = '/' ∧
      (∀ c ∈ m, good_char c = true) ∧ '\\' ∉ m := by
  have hmem := docker_mount_mem hm
  simp only [DOCKER_MOUNTS, List.mem_cons, List.not_mem_nil, or_false] at hmem
  rcases hmem with h | h | h | h | h <;>
    (injection h with h1 h2; subst h2) <;>
    first
      | exact ⟨"nt/shar".data, 'e', by decide, by decide, by decide, by decide⟩
      | exact ⟨"nt/share".data, '2', by decide, by decide, by decide, by decide⟩
      | exact ⟨"nt/share".data, '3', by decide, by decide, by decide, by decide⟩
      | exact ⟨"nt/share".data, '4', by decide, by decide, by decide, by decide⟩
      | exact ⟨"nt/share".data, '5', by decide, by decide, by decide, by decide⟩

/-- The container-mount output `rstrip('/', mount + '/' + rem)` of the smb and
`/Volumes` cases is a fixed point of the normalizer. -/
theorem mnt_rstrip_fixed (docker : Bool) (share m rem : List Char)
    (hm : docker_mount share = some m)
    (hrem : ∀ c ∈ rem, good_char c = true) :
    normalize_one docker (rstrip_char '/' (m ++ '/' :: rem)) =
      rstrip_char '/' (m ++ '/' :: rem) := by
  rcases mount_decomp hm with ⟨u, cl, hmdec, hcl, hgood, hnb⟩
  subst hmdec
  rw [show (('/' :: 'm' :: u) ++ [cl]) ++ '/' :: rem =
      ('/' :: 'm' :: u) ++ cl :: ('/' :: rem) from by simp]
  unfold rstrip_char
  rw [drop_end_while_append_cons _ (by simpa using hcl) _]
  rw [show ('/' :: 'm' :: u) ++ cl :: drop_end_while (fun c => c = '/') ('/' :: rem) =
      '/' :: 'm' :: (u ++ cl :: drop_end_while (fun c => c = '/') ('/' :: rem))
    from by simp]
  apply slash_m_fixed
  intro c hc
  rcases List.mem_cons.mp hc with he | hc2
  · subst he
    decide
  rcases List.mem_cons.mp hc2 with he | hc3
  · subst he
    decide
  rcases List.mem_append.mp hc3 with hu | hcr
  · exact hgood c (by simp [hu])
  rcases List.mem_cons.mp hcr with he | hdr
  · subst he
    exact hgood c (by simp)
  have hmem2 := mem_of_mem_drop_end_while hdr
  rcases List.mem_cons.mp hmem2 with he | hr
  · subst he
    decide
  · exact hrem c hr

/-- The container-mount output `(mount + '/' + rem).replace('\\', '/')` of the
drive-letter and UNC cases is a fixed point of the normalizer. -/
theorem mnt_replace_fixed (docker : Bool) (share m rem : List Char)
    (hm : docker_mount share = some m)
    (hrem : ∀ c ∈ rem, good_char c = true) :
    normalize_one docker (replace_char '\\' '/' (m ++ '/' :: rem)) =
      replace_char '\\' '/' (m ++ '/' :: rem) := by
  rcases mount_decomp hm with ⟨u, cl, hmdec, hcl, hgood, hnb⟩
  rw [replace_char_append, replace_char_eq_self '/' hnb,
    replace_char_cons, if_neg (by decide)]
  subst hmdec
  rw [show (('/' :: 'm' :: u) ++ [cl]) ++ '/' :: replace_char '\\' '/' rem =
      '/' :: 'm' :: (u ++ cl :: '/' :: replace_char '\\' '/' rem) from by simp]
  apply slash_m_fixed
  intro c hc
  rcases List.mem_cons.mp hc with he | hc2
  · subst he
    decide
  rcases List.mem_cons.mp hc2 with he | hc3
  · subst he
    decide
  rcases List.mem_append.mp hc3 with hu | hcr
  · exact hgood c (by simp [hu])
  rcases List.mem_cons.mp hcr with he | hdr
  · subst he
    exact hgood c (by simp)
  rcases List.mem_cons.mp hdr with he | hrr
  · subst he
    decide
  rcases mem_replace_char hrr with hin | he
  · exact hrem c hin
  · subst he
    decide

end VideoCompilation

namespace VideoCompilation

/-- Shares returned by the drive lookup are made of good characters and contain
no slash of either kind. -/
theorem share_facts {d s : List Char} (h : lookup_share_by_drive d = some s) :
    (∀ c ∈ s, good_char c = true) ∧ '\\' ∉ s ∧ '/' ∉ s := by
  rcases lookup_share_mem h with ⟨dr, hmem⟩
  simp only [SHARE_MAPPINGS, List.mem_cons, List.not_mem_nil, or_false] at hmem
  rcases hmem with h | h | h | h | h | h | h | h | h <;>
    (injection h with h1 h2; subst h1) <;>
    exact ⟨by decide, by decide, by decide⟩

/-- Idempotence for inputs with no forward slash: drive-letter paths in
backslash form, UNC paths and pass-through strings. -/
theorem normalize_idem_no_slash (docker : Bool) (x : List Char)
    (hclean : ∀ c ∈ x, good_char c = true) (hnos : '/' ∉ x) :
    normalize_one docker (normalize_one docker x) = normalize_one docker x := by
  cases x with
  | nil =>
    have h0 : normalize_one docker [] = [] := rfl
    rw [h0, h0]
  | cons a t =>
    have hstrip := strip_py_eq_self hclean
    have hprefix_false : ∀ (pat : List Char), '/' ∈ pat →
        pat.isPrefixOf (a :: t) = false := by
      intro pat hp
      rw [Bool.eq_false_iff]
      intro htrue
      exact hnos ((List.isPrefixOf_iff_prefix.mp htrue).subset hp)
    have hsmb := hprefix_false "smb://".data (by decide)
    have hvol := hprefix_false "/Volumes/".data (by decide)
    by_cases hdc : 2 ≤ (a :: t).length ∧ (a :: t).getD 1 ' ' = ':'
    · cases hlk : lookup_share_by_drive ((a :: t).take 2) with
      | none =>
        have h1 : normalize_one docker (a :: t) = a :: t := by
          unfold normalize_one
          rw [if_neg (by simp)]
          simp only [hstrip, hsmb, hvol, Bool.false_eq_true, if_false]
          rw [if_pos hdc, hlk]
        rw [h1, h1]
      | some share =>
        rcases share_facts hlk with ⟨hsc, hsb, hss⟩
        have hremclean : ∀ c ∈ ((a :: t).drop 2).dropWhile (fun c => c = '\\'),
            good_char c = true := fun c hc =>
          hclean c (List.drop_subset 2 _ ((List.dropWhile_sublist _).subset hc))
        have hremnos : '/' ∉ ((a :: t).drop 2).dropWhile (fun c => c = '\\') :=
          fun hc => hnos (List.drop_subset 2 _ ((List.dropWhile_sublist _).subset hc))
        by_cases hdm : (docker && (docker_mount share).isSome) = true
        · obtain ⟨hdk, hsome⟩ : docker = true ∧ (docker_mount share).isSome = true := by
            simpa [Bool.and_eq_true] using hdm
          rcases Option.isSome_iff_exists.mp hsome with ⟨m, hm⟩
          have h1 : normalize_one docker (a :: t) =
              replace_char '\\' '/'
                (m ++ '/' :: ((a :: t).drop 2).dropWhile (fun c => c = '\\')) := by
            unfold normalize_one
            rw [if_neg (by simp)]
            simp only [hstrip, hsmb, hvol, Bool.false_eq_true, if_false]
            rw [if_pos hdc]
            simp only [hlk, hm, Option.getD_some]
            rw [if_pos (by rw [hdk]; simp)]
          rw [h1]
          exact mnt_replace_fixed docker share m _ hm hremclean
        · have h1 : normalize_one docker (a :: t) =
              unc_root ++ share ++ '\\' :: ((a :: t).drop 2).dropWhile (fun c => c = '\\') := by
            unfold normalize_one
            rw [if_neg (by simp)]
            simp only [hstrip, hsmb, hvol, Bool.false_eq_true, if_false]
            rw [if_pos hdc]
            simp only [hlk, hdm, Bool.false_eq_true, if_false]
          rw [h1]
          refine unc_fixed docker share _ hsc hremclean hsb hss hremnos ?_
          intro hdk
          subst hdk
          simp only [Bool.true_and] at hdm
          exact Option.not_isSome_iff_eq_none.mp hdm
    · by_cases hunc : ("\\\\".data).isPrefixOf (a :: t) = true
      · by_cases hlen : 4 ≤ (split_on_char '\\' (a :: t)).length
        · rcases hp : split_on_char '\\' (a :: t) with _ | ⟨p0, _ | ⟨p1, _ | ⟨p2, _ | ⟨p3, rest⟩⟩⟩⟩ <;>
            rw [hp] at hlen <;> try simp at hlen
          · have hp3mem : p3 ∈ split_on_char '\\' (a :: t) := by
              rw [hp]
              simp
            rcases split_on_char_mem hp3mem with ⟨hp3b, hp3sub⟩
            have hp3clean : ∀ c ∈ p3, good_char c = true := fun c hc => hclean c (hp3sub c hc)
            have hp3nos : '/' ∉ p3 := fun hc => hnos (hp3sub _ hc)
            have hremclean : ∀ c ∈ join_sep '\\' rest, good_char c = true := by
              intro c hc
              rcases mem_join_sep hc with he | ⟨seg, hseg, hcseg⟩
              · subst he
                decide
              · have : seg ∈ split_on_char '\\' (a :: t) := by
                  rw [hp]
                  simp [hseg]
                exact hclean c ((split_on_char_mem this).2 c hcseg)
            have hremnos : '/' ∉ join_sep '\\' rest := by
              intro hc
              rcases mem_join_sep hc with he | ⟨seg, hseg, hcseg⟩
              · cases he
              · have : seg ∈ split_on_char '\\' (a :: t) := by
                  rw [hp]
                  simp [hseg]
                exact hnos ((split_on_char_mem this).2 _ hcseg)
            by_cases hdm : (docker && (docker_mount p3).isSome) = true
            · obtain ⟨hdk, hsome⟩ : docker = true ∧ (docker_mount p3).isSome = true := by
                simpa [Bool.and_eq_true] using hdm
              rcases Option.isSome_iff_exists.mp hsome with ⟨m, hm⟩
              have h1 : normalize_one docker (a :: t) =
                  replace_char '\\' '/' (m ++ '/' :: join_sep '\\' rest) := by
                unfold normalize_one
                rw [if_neg (by simp)]
                simp only [hstrip, hsmb, hvol, Bool.false_eq_true, if_false]
                rw [if_neg hdc, if_pos hunc, hp]
                rw [if_pos (by simp)]
                simp only [List.getD_cons_succ, List.getD_cons_zero,
                  List.drop_succ_cons, List.drop_zero]
                simp only [hm, Option.getD_some]
                rw [if_pos (by rw [hdk]; simp)]
              rw [h1]
              exact mnt_replace_fixed docker p3 m _ hm hremclean
            · have h1 : normalize_one docker (a :: t) = a :: t := by
                unfold normalize_one
                rw [if_neg (by simp)]
                simp only [hstrip, hsmb, hvol, Bool.false_eq_true, if_false]
                rw [if_neg hdc, if_pos hunc, hp]
                rw [if_pos (by simp)]
                simp only [List.getD_cons_succ, List.getD_cons_zero,
                  List.drop_succ_cons, List.drop_zero]
                simp only [hdm, Bool.false_eq_true, if_false]
                exact replace_char_eq_self '\\' hnos
              rw [h1, h1]
        · have h1 : normalize_one docker (a :: t) = a :: t := by
            unfold normalize_one
            rw [if_neg (by simp)]
            simp only [hstrip, hsmb, hvol, Bool.false_eq_true, if_false]
            rw [if_neg hdc, if_pos hunc]
            rw [if_neg hlen]
          rw [h1, h1]
      · have h1 : normalize_one docker (a :: t) = a :: t := by
          unfold normalize_one
          rw [if_neg (by simp)]
          simp only [hstrip, hsmb, hvol, Bool.false_eq_true, if_false]
          rw [if_neg hdc]
          rw [Bool.eq_false_iff.mpr hunc]
          simp only [Bool.false_eq_true, if_false]
        rw [h1, h1]

end VideoCompilation

namespace VideoCompilation

/-- Idempotence for `smb://` inputs with no backslash and no colon after the
scheme (so the scheme occurs only as the prefix). -/
theorem normalize_idem_smb (docker : Bool) (t : List Char)
    (hclean : ∀ c ∈ ("smb://".data ++ t), good_char c = true)
    (hnb : '\\' ∉ t) (hnc : ':' ∉ t) :
    normalize_one docker (normalize_one docker ("smb://".data ++ t)) =
      normalize_one docker ("smb://".data ++ t) := by
  have htclean : ∀ c ∈ t, good_char c = true := fun c hc =>
    hclean c (List.mem_append_right _ hc)
  have hstrip := strip_py_eq_self hclean
  have hpre : ("smb://".data).isPrefixOf ("smb://".data ++ t) = true :=
    List.isPrefixOf_iff_prefix.mpr (List.prefix_append _ _)
  have hdel : replace_str "smb://".data [] ("smb://".data ++ t) = t := by
    rw [replace_str_append_pat _ _ _ (by decide),
      replace_str_eq_self (show ':' ∈ "smb://".data by decide) hnc]
    simp
  have hne : ¬ ("smb://".data ++ t).isEmpty = true := by
    rw [show "smb://".data ++ t = 's' :: ("mb://".data ++ t) from rfl]
    simp
  by_cases hplen : 2 ≤ (split_on_char '/' t).length
  · rcases hp : split_on_char '/' t with _ | ⟨p0, _ | ⟨p1, rest⟩⟩ <;>
      rw [hp] at hplen <;> try simp at hplen
    have hp1mem : p1 ∈ split_on_char '/' t := by
      rw [hp]
      simp
    rcases split_on_char_mem hp1mem with ⟨hp1s, hp1sub⟩
    have hp1clean : ∀ c ∈ p1, good_char c = true := fun c hc => htclean c (hp1sub c hc)
    have hp1nb : '\\' ∉ p1 := fun hc => hnb (hp1sub _ hc)
    have hremclean : ∀ c ∈ join_sep '/' rest, good_char c = true := by
      intro c hc
      rcases mem_join_sep hc with he | ⟨seg, hseg, hcseg⟩
      · subst he
        decide
      · have : seg ∈ split_on_char '/' t := by
          rw [hp]
          simp [hseg]
        exact htclean c ((split_on_char_mem this).2 c hcseg)
    have hremnb : '\\' ∉ join_sep '/' rest := by
      intro hc
      rcases mem_join_sep hc with he | ⟨seg, hseg, hcseg⟩
      · cases he
      · have : seg ∈ split_on_char '/' t := by
          rw [hp]
          simp [hseg]
        exact hnb ((split_on_char_mem this).2 _ hcseg)
    by_cases hdm : (docker && (docker_mount p1).isSome) = true
    · obtain ⟨hdk, hsome⟩ : docker = true ∧ (docker_mount p1).isSome = true := by
        simpa [Bool.and_eq_true] using hdm
      rcases Option.isSome_iff_exists.mp hsome with ⟨m, hm⟩
      have h1 : normalize_one docker ("smb://".data ++ t) =
          rstrip_char '/' (m ++ '/' :: join_sep '/' rest) := by
        unfold normalize_one
        rw [if_neg hne]
        simp only [hstrip, hpre, if_true, hdel, hp]
        rw [if_pos (by simp)]
        simp only [List.getD_cons_succ, List.getD_cons_zero,
          List.drop_succ_cons, List.drop_zero]
        simp only [hm, Option.getD_some]
        rw [if_pos (by rw [hdk]; simp)]
      rw [h1]
      exact mnt_rstrip_fixed docker p1 m _ hm hremclean
    · have h1 : normalize_one docker ("smb://".data ++ t) =
          unc_root ++ p1 ++ '\\' :: replace_char '/' '\\' (join_sep '/' rest) := by
        unfold normalize_one
        rw [if_neg hne]
        simp only [hstrip, hpre, if_true, hdel, hp]
        rw [if_pos (by simp)]
        simp only [List.getD_cons_succ, List.getD_cons_zero,
          List.drop_succ_cons, List.drop_zero]
        simp only [hdm, Bool.false_eq_true, if_false]
        rw [replace_char_append, replace_char_append,
          replace_char_eq_self '\\' unc_root_no_slash,
          replace_char_eq_self '\\' (fun hc => hp1s hc),
          replace_char_cons, if_neg (by decide)]
      rw [h1]
      refine unc_fixed docker p1 _ hp1clean ?_ hp1nb (fun hc => hp1s hc) ?_ ?_
      · intro c hc
        rcases mem_replace_char hc with hin | he
        · exact hremclean c hin
        · subst he
          decide
      · exact not_mem_replace_char (by decide) _
      · intro hdk
        subst hdk
        simp only [Bool.true_and] at hdm
        exact Option.not_isSome_iff_eq_none.mp hdm
  · have hnost : '/' ∉ t := fun hc => hplen (split_on_char_two_le_of_mem hc)
    have h1 : normalize_one docker ("smb://".data ++ t) = '\\' :: '\\' :: t := by
      unfold normalize_one
      rw [if_neg hne]
      simp only [hstrip, hpre, if_true, hdel]
      rw [if_neg hplen]
      rw [replace_str_append_pat _ _ _ (by decide),
        replace_str_eq_self (show ':' ∈ "smb://".data by decide) hnc]
      rw [show ("\\\\".data ++ t : List Char) = '\\' :: '\\' :: t from rfl]
      rw [replace_char_cons, if_neg (by decide), replace_char_cons,
        if_neg (by decide), replace_char_eq_self '\\' hnost]
    rw [h1]
    refine unc_short_fixed docker t ?_ hnb
    intro c hc
    rcases List.mem_cons.mp hc with he | hc2
    · subst he
      decide
    rcases List.mem_cons.mp hc2 with he | hc3
    · subst he
      decide
    · exact htclean c hc3

end VideoCompilation

namespace VideoCompilation

/-- Idempotence for `/Volumes/` inputs with no backslash. -/
theorem normalize_idem_volumes (docker : Bool) (t : List Char)
    (hclean : ∀ c ∈ ("/Volumes/".data ++ t), good_char c = true)
    (hnb : '\\' ∉ t) :
    normalize_one docker (normalize_one docker ("/Volumes/".data ++ t)) =
      normalize_one docker ("/Volumes/".data ++ t) := by
  have htclean : ∀ c ∈ t, good_char c = true := fun c hc =>
    hclean c (List.mem_append_right _ hc)
  have hstrip := strip_py_eq_self hclean
  have hne : ¬ ("/Volumes/".data ++ t).isEmpty = true := by
    rw [show "/Volumes/".data ++ t = '/' :: ("Volumes/".data ++ t) from rfl]
    simp
  have hsmbf : ("smb://".data).isPrefixOf ("/Volumes/".data ++ t) = false :=
    smb_prefix_cons_false (by decide) ("Volumes/".data ++ t)
  have hvolt : ("/Volumes/".data).isPrefixOf ("/Volumes/".data ++ t) = true :=
    List.isPrefixOf_iff_prefix.mpr (List.prefix_append _ _)
  cases hsp : split_on_char '/' t with
  | nil => exact absurd hsp (split_on_char_ne_nil '/' t)
  | cons s0 rest =>
    have hparts : split_on_char '/' ("/Volumes/".data ++ t) =
        [] :: "Volumes".data :: s0 :: rest := by
      rw [show "/Volumes/".data ++ t = '/' :: ("Volumes".data ++ '/' :: t) from rfl,
        split_on_char_sep, split_on_char_append (by decide), hsp]
    have hs0mem : s0 ∈ split_on_char '/' t := by
      rw [hsp]
      simp
    rcases split_on_char_mem hs0mem with ⟨hs0s, hs0sub⟩
    have hs0clean : ∀ c ∈ s0, good_char c = true := fun c hc => htclean c (hs0sub c hc)
    have hs0nb : '\\' ∉ s0 := fun hc => hnb (hs0sub _ hc)
    have hremclean : ∀ c ∈ join_sep '/' rest, good_char c = true := by
      intro c hc
      rcases mem_join_sep hc with he | ⟨seg, hseg, hcseg⟩
      · subst he
        decide
      · have : seg ∈ split_on_char '/' t := by
          rw [hsp]
          simp [hseg]
        exact htclean c ((split_on_char_mem this).2 c hcseg)
    have hremnb : '\\' ∉ join_sep '/' rest := by
      intro hc
      rcases mem_join_sep hc with he | ⟨seg, hseg, hcseg⟩
      · cases he
      · have : seg ∈ split_on_char '/' t := by
          rw [hsp]
          simp [hseg]
        exact hnb ((split_on_char_mem this).2 _ hcseg)
    by_cases hdm : (docker && (docker_mount s0).isSome) = true
    · obtain ⟨hdk, hsome⟩ : docker = true ∧ (docker_mount s0).isSome = true := by
        simpa [Bool.and_eq_true] using hdm
      rcases Option.isSome_iff_exists.mp hsome with ⟨m, hm⟩
      have h1 : normalize_one docker ("/Volumes/".data ++ t) =
          rstrip_char '/' (m ++ '/' :: join_sep '/' rest) := by
        unfold normalize_one
        rw [if_neg hne]
        simp only [hstrip, hsmbf, Bool.false_eq_true, if_false, hvolt, if_true, hparts]
        rw [if_pos (by simp)]
        simp only [List.getD_cons_succ, List.getD_cons_zero,
          List.drop_succ_cons, List.drop_zero]
        simp only [hm, Option.getD_some]
        rw [if_pos (by rw [hdk]; simp)]
      rw [h1]
      exact mnt_rstrip_fixed docker s0 m _ hm hremclean
    · have h1 : normalize_one docker ("/Volumes/".data ++ t) =
          unc_root ++ s0 ++ '\\' :: replace_char '/' '\\' (join_sep '/' rest) := by
        unfold normalize_one
        rw [if_neg hne]
        simp only [hstrip, hsmbf, Bool.false_eq_true, if_false, hvolt, if_true, hparts]
        rw [if_pos (by simp)]
        simp only [List.getD_cons_succ, List.getD_cons_zero,
          List.drop_succ_cons, List.drop_zero]
        simp only [hdm, Bool.false_eq_true, if_false]
        rw [replace_char_append, replace_char_append,
          replace_char_eq_self '\\' unc_root_no_slash,
          replace_char_eq_self '\\' (fun hc => hs0s hc),
          replace_char_cons, if_neg (by decide)]
      rw [h1]
      refine unc_fixed docker s0 _ hs0clean ?_ hs0nb (fun hc => hs0s hc) ?_ ?_
      · intro c hc
        rcases mem_replace_char hc with hin | he
        · exact hremclean c hin
        · subst he
          decide
      · exact not_mem_replace_char (by decide) _
      · intro hdk
        subst hdk
        simp only [Bool.true_and] at hdm
        exact Option.not_isSome_iff_eq_none.mp hdm

end VideoCompilation

namespace VideoCompilation

/-- Claim C4 (amended): path normalization is idempotent, in both the
container-host and direct-access-host configurations, for every input free of
whitespace, quote and apostrophe characters that is (a) without forward slashes
(drive-letter paths in backslash form, UNC paths, and pass-through strings), or
(b) an `smb://` URL with no backslash and no colon after the scheme, or (c) a
`/Volumes/` path with no backslash.  It is not idempotent in general: a
drive-letter path with a forward-slash remainder (`V:/foo`), or a quoted input
whose stripping exposes whitespace, changes again on a second pass. -/
theorem normalize_idempotent_on_safe_inputs :
    ∀ (docker : Bool) (x : List Char),
      (∀ c ∈ x, good_char c = true) →
      ('/' ∉ x ∨
        ("smb://".data <+: x ∧ '\\' ∉ x ∧ ':' ∉ x.drop 6) ∨
        ("/Volumes/".data <+: x ∧ '\\' ∉ x)) →
      normalize_path_for_server docker (normalize_path_for_server docker x) =
        normalize_path_for_server docker x := by
  intro docker x hclean hcase
  unfold normalize_path_for_server
  rcases hcase with hnos | ⟨hpre, hnb, hnc⟩ | ⟨hpre, hnb⟩
  · exact normalize_idem_no_slash docker x hclean hnos
  · rcases hpre with ⟨t, rfl⟩
    have hnct : ':' ∉ t := by
      have hd : ("smb://".data ++ t).drop 6 = t := by
        rw [show (6 : Nat) = ("smb://".data).length from rfl]
        exact List.drop_left _ _
      rw [hd] at hnc
      exact hnc
    have hnbt : '\\' ∉ t := fun hc => hnb (List.mem_append_right _ hc)
    exact normalize_idem_smb docker t hclean hnbt hnct
  · rcases hpre with ⟨t, rfl⟩
    have hnbt : '\\' ∉ t := fun hc => hnb (List.mem_append_right _ hc)
    exact normalize_idem_volumes docker t hclean hnbt

/-- Claim C4 witness: idempotence at a backslash drive-letter path on the
direct-access host and at an smb URL on the container host. -/
theorem normalize_idempotent_on_safe_inputs_witness :
    normalize_path_for_server false
        (normalize_path_for_server false "V:\\Media\\clip.mp4".data) =
      normalize_path_for_server false "V:\\Media\\clip.mp4".data ∧
    normalize_path_for_server true
        (normalize_path_for_server true "smb://192.168.1.6/Share3/Public/video.mp4".data) =
      normalize_path_for_server true "smb://192.168.1.6/Share3/Public/video.mp4".data :=
  ⟨normalize_idempotent_on_safe_inputs false _ (by decide) (Or.inl (by decide)),
    normalize_idempotent_on_safe_inputs true _ (by decide)
      (Or.inr (Or.inl ⟨⟨"192.168.1.6/Share3/Public/video.mp4".data, rfl⟩,
        by decide, by decide⟩))⟩

end VideoCompilation
